import Mathlib

/-!
# Verification of the `stocks` ledger-based accounting engine

Shallow embedding of `src/portfolio.rs` (the ledger-based position and
profit accounting engine) and of the tax rule in `src/bin/cli/commands.rs`
and `src/bin/cli/main.rs`.

Modelling conventions:
* `f64` values (prices, ratios, averages) are embedded as exact rationals
  `ℚ`; division by zero yields `0` (Lean's convention) where `f64` would
  produce a non-finite value.
* `u32` / `i32` machine integers are `ℕ` / `ℤ` with the casts of the
  source made explicit: Rust's float-to-int `as` casts truncate toward
  zero and saturate at the type's bounds, int-to-int `as` casts wrap, and
  `u32` arithmetic wraps modulo `2^32` (release-profile semantics).
* `OffsetDateTime` is embedded as an absolute instant (for comparisons)
  together with the calendar fields the code reads (`year()`, `month()`);
  the `time` crate guarantees that the month is in `1..=12`.
* `HashMap<String, Stock>` is embedded as an association list with the
  same key-lookup semantics (string equality); `entry().or_insert_with`
  updates the entry in place or appends a fresh one.
-/

namespace Stocks

/-- Embeds `time::OffsetDateTime`: an absolute instant `abs` used for every
comparison, plus the calendar fields read by `get_profit_by_month`. The
`time` crate's `Month` enum guarantees `1 ≤ month ≤ 12`. -/
structure DateTime where
  abs : ℤ
  year : ℤ
  month : ℕ
  month_ge : 1 ≤ month
  month_le : month ≤ 12

/-- Embeds `portfolio.rs` `struct Split { ratio: f64, datetime: OffsetDateTime }`. -/
structure Split where
  ratio : ℚ
  datetime : DateTime

/-- Embeds `portfolio.rs` `enum TradeKind { Buy, Sell }`. -/
inductive TradeKind where
  | Buy : TradeKind
  | Sell : TradeKind
deriving DecidableEq

/-- Embeds `portfolio.rs` `struct Trade`. `quantity` is the stored `u32`
(values produced by the program are `< 2^32`), `splits` is the list of
splits that happened after the trade. -/
structure Trade where
  quantity : ℕ
  price : ℚ
  datetime : DateTime
  kind : TradeKind
  splits : List Split

/-- Embeds `portfolio.rs` `struct Stock { symbol, trades }`. -/
structure Stock where
  symbol : String
  trades : List Trade

/-- Embeds `portfolio.rs` `struct Portfolio { stocks: HashMap<String, Stock> }`
as an association list keyed by exact string equality. -/
structure Portfolio where
  stocks : List (String × Stock)

/-- Embeds `MonthSummary { profit: f64, sold_amount: f64 }`. -/
structure MonthSummary where
  profit : ℚ
  sold_amount : ℚ

/-- Rust `expr as u32` applied to a (non-NaN) `f64`: truncation toward zero,
saturating into `[0, 2^32)`. For `x ≥ 0` truncation equals `⌊x⌋`; for `x < 0`
both the truncation and the saturation give `0`, which `Int.toNat ∘ Int.floor`
also gives. -/
def u32ofRat (x : ℚ) : ℕ :=
  min (Int.toNat ⌊x⌋) (2 ^ 32 - 1)

/-- Rust `expr as i32` applied to a (non-NaN) `f64`: truncation with
saturation into `[-2^31, 2^31)`. The program only applies it to exact
integers, so only the saturation is modelled. -/
def i32sat (x : ℤ) : ℤ :=
  max (-(2 ^ 31)) (min x (2 ^ 31 - 1))

/-- `i32` wrapping addition result: reduce into `[-2^31, 2^31)` modulo `2^32`. -/
def wrap32 (x : ℤ) : ℤ :=
  (x + 2 ^ 31) % 2 ^ 32 - 2 ^ 31

/-- The `±1.0` signal of `Stock::quantity`. -/
def tradeSign : TradeKind → ℤ
  | TradeKind.Buy => 1
  | TradeKind.Sell => -1

/-- The split-ratio product of `Trade::quantity` / `Trade::price`:
`self.splits.iter().filter(|split| split.datetime < datetime).fold(1.0, |acc, split| acc * split.ratio)`. -/
def Trade.split_ratio (t : Trade) (datetime : DateTime) : ℚ :=
  (t.splits.filter (fun sp => sp.datetime.abs < datetime.abs)).foldl
    (fun acc sp => acc * sp.ratio) 1

/-- Embeds `Trade::quantity(&self, datetime)`:
`(self.quantity as f64 * split_ratio) as u32`. -/
def Trade.quantityAt (t : Trade) (datetime : DateTime) : ℕ :=
  u32ofRat ((t.quantity : ℚ) * t.split_ratio datetime)

/-- Embeds `Trade::price(&self, datetime)`: `self.price / split_ratio`. -/
def Trade.priceAt (t : Trade) (datetime : DateTime) : ℚ :=
  t.price / t.split_ratio datetime

/-- Embeds `Stock::new`. -/
def Stock.new (symbol : String) : Stock :=
  ⟨symbol, []⟩

/-- The loop of `Stock::split`: pushes `Split { ratio, datetime }` onto every
trade until the first trade with `trade.datetime >= datetime`, where it breaks. -/
def splitTrades (ratio : ℚ) (datetime : DateTime) : List Trade → List Trade
  | [] => []
  | t :: ts =>
    if datetime.abs ≤ t.datetime.abs then t :: ts
    else { t with splits := t.splits ++ [⟨ratio, datetime⟩] } :: splitTrades ratio datetime ts

/-- Embeds `Stock::split`. -/
def Stock.split (s : Stock) (ratio : ℚ) (datetime : DateTime) : Stock :=
  { s with trades := splitTrades ratio datetime s.trades }

/-- The loop of `Stock::quantity`: running `i32` accumulator, breaking at the
first trade with `trade.datetime >= date`, adding
`(trade.quantity(date) as f64 * signal) as i32` with wrapping `+=`. -/
def quantityGo (date : DateTime) : List Trade → ℤ → ℤ
  | [], q => q
  | t :: ts, q =>
    if date.abs ≤ t.datetime.abs then q
    else quantityGo date ts (wrap32 (q + i32sat (tradeSign t.kind * (t.quantityAt date : ℤ))))

/-- Embeds `Stock::quantity`: the final `quantity as u32` bit-cast of the
`i32` accumulator. -/
def Stock.quantity (s : Stock) (date : DateTime) : ℕ :=
  (quantityGo date s.trades 0 % 2 ^ 32).toNat

/-- One iteration of the `Stock::average_purchase_price` loop on the running
`(quantity, average_purchase_price)` state. On a Buy the new average is
computed with the old quantity in the numerator and the (wrapping) `u32` sum
in the denominator, then the quantity is updated; on a Sell the quantity is
decremented (wrapping `u32` subtraction) and the average is reset to `0`
exactly when the quantity reaches `0`. -/
def avgStep (date : DateTime) (st : ℕ × ℚ) (t : Trade) : ℕ × ℚ :=
  match t.kind with
  | TradeKind.Buy =>
    let tq := t.quantityAt date
    let qty := (st.1 + tq) % 2 ^ 32
    (qty, (st.2 * (st.1 : ℚ) + t.priceAt date * (tq : ℚ)) / (qty : ℚ))
  | TradeKind.Sell =>
    let tq := t.quantityAt date
    let qty := (st.1 + (2 ^ 32 - tq)) % 2 ^ 32
    (qty, if qty = 0 then 0 else st.2)

/-- The loop of `Stock::average_purchase_price`, breaking at the first trade
with `trade.datetime >= date`. -/
def avgGo (date : DateTime) : List Trade → ℕ × ℚ → ℕ × ℚ
  | [], st => st
  | t :: ts, st =>
    if date.abs ≤ t.datetime.abs then st
    else avgGo date ts (avgStep date st t)

/-- Embeds `Stock::average_purchase_price`. -/
def Stock.average_purchase_price (s : Stock) (date : DateTime) : ℚ :=
  (avgGo date s.trades (0, 0)).2

/-- The comparator of `Stock::add_trade`: `a.datetime.cmp(&b.datetime)`. -/
def tradeLE (a b : Trade) : Bool :=
  decide (a.datetime.abs ≤ b.datetime.abs)

/-- Embeds `Stock::add_trade`: push the trade, then (stable) sort by datetime. -/
def Stock.add_trade (s : Stock) (t : Trade) : Stock :=
  { s with trades := (s.trades ++ [t]).mergeSort tradeLE }

/-- Embeds `Stock::buy`. -/
def Stock.buy (s : Stock) (quantity : ℕ) (price : ℚ) (datetime : DateTime) : Stock :=
  s.add_trade { quantity := quantity, price := price, datetime := datetime,
                kind := TradeKind.Buy, splits := [] }

/-- Embeds `Stock::calculate_profit`:
`(trade.price - average_purchase_price) * trade.quantity as f64` with the
average taken at the trade's datetime. -/
def Stock.calculate_profit (s : Stock) (t : Trade) : ℚ :=
  (t.price - s.average_purchase_price t.datetime) * (t.quantity : ℚ)

/-- Embeds `Stock::sell`: `ensure!(quantity <= self.quantity(datetime))`, then
the profit is computed on the state *before* the new trade is added, then the
trade is added. `none` models the `Err` case. -/
def Stock.sell (s : Stock) (quantity : ℕ) (price : ℚ) (datetime : DateTime) :
    Option (Stock × ℚ) :=
  if quantity ≤ s.quantity datetime then
    let trade : Trade := { quantity := quantity, price := price, datetime := datetime,
                           kind := TradeKind.Sell, splits := [] }
    some (s.add_trade trade, s.calculate_profit trade)
  else none

/-- The 0-based month bucket `trade.datetime.month() as usize - 1`;
in bounds because the `time` crate's months are `1..=12`. -/
def monthIndex (d : DateTime) : Fin 12 :=
  ⟨d.month - 1, by have h1 := d.month_ge; have h2 := d.month_le; omega⟩

/-- `[MonthSummary::default(); 12]`. -/
def emptySummary : Fin 12 → MonthSummary :=
  fun _ => ⟨0, 0⟩

/-- One iteration of the `Stock::get_profit_by_month` loop: skip non-Sell
trades and trades of other years, otherwise accumulate
`sold_amount += trade.price * trade.quantity` and
`profit += self.calculate_profit(trade)` into the month's bucket. -/
def profitStep (s : Stock) (year : ℤ) (arr : Fin 12 → MonthSummary) (t : Trade) :
    Fin 12 → MonthSummary :=
  if t.kind ≠ TradeKind.Sell then arr
  else if t.datetime.year ≠ year then arr
  else fun j =>
    if j = monthIndex t.datetime then
      ⟨(arr j).profit + s.calculate_profit t,
       (arr j).sold_amount + t.price * (t.quantity : ℚ)⟩
    else arr j

/-- Embeds `Stock::get_profit_by_month` (iterates over *all* trades; no break). -/
def Stock.get_profit_by_month (s : Stock) (year : ℤ) : Fin 12 → MonthSummary :=
  s.trades.foldl (profitStep s year) emptySummary

/-- Embeds `Portfolio::new`. -/
def Portfolio.new : Portfolio :=
  ⟨[]⟩

/-- `HashMap::get` / `get_mut`: look a stock up by exact string key. -/
def Portfolio.getStock (p : Portfolio) (symbol : String) : Option Stock :=
  (p.stocks.find? (fun e => e.1 == symbol)).map (fun e => e.2)

/-- `HashMap::entry(..).or_insert_with(..)` followed by the mutation: replace
the stock stored under `symbol` in place, or insert it if absent. -/
def Portfolio.setStock (p : Portfolio) (symbol : String) (st : Stock) : Portfolio :=
  if p.stocks.any (fun e => e.1 == symbol) then
    ⟨p.stocks.map (fun e => if e.1 == symbol then (e.1, st) else e)⟩
  else ⟨p.stocks ++ [(symbol, st)]⟩

/-- Embeds `Portfolio::buy`: lazily creates the ledger, then `Stock::buy`. -/
def Portfolio.buy (p : Portfolio) (symbol : String) (quantity : ℕ) (price : ℚ)
    (datetime : DateTime) : Portfolio :=
  p.setStock symbol (((p.getStock symbol).getD (Stock.new symbol)).buy quantity price datetime)

/-- Embeds `Portfolio::split`: lazily creates the ledger, then `Stock::split`. -/
def Portfolio.split (p : Portfolio) (symbol : String) (ratio : ℚ)
    (datetime : DateTime) : Portfolio :=
  p.setStock symbol (((p.getStock symbol).getD (Stock.new symbol)).split ratio datetime)

/-- Embeds `Portfolio::sell`: `get_mut` (no ledger is created), then
`Stock::sell`; the pair is the portfolio after the call and the `Result`. -/
def Portfolio.sell (p : Portfolio) (symbol : String) (quantity : ℕ) (price : ℚ)
    (datetime : DateTime) : Portfolio × Option ℚ :=
  match p.getStock symbol with
  | none => (p, none)
  | some st =>
    match st.sell quantity price datetime with
    | none => (p, none)
    | some (st2, profit) => (p.setStock symbol st2, some profit)

/-- Element-wise `profit_by_month[month].{profit, sold_amount} += summary.{..}`. -/
def sumSummaries (a b : Fin 12 → MonthSummary) : Fin 12 → MonthSummary :=
  fun i => ⟨(a i).profit + (b i).profit, (a i).sold_amount + (b i).sold_amount⟩

/-- Embeds `Portfolio::profit_by_month`: per-stock arrays summed element-wise. -/
def Portfolio.profit_by_month (p : Portfolio) (year : ℤ) : Fin 12 → MonthSummary :=
  p.stocks.foldl (fun arr e => sumSummaries arr (e.2.get_profit_by_month year)) emptySummary

/-- Embeds the tax rule of `profit_summary` in `src/bin/cli/commands.rs`:
`if summary.sold_amount > 20000.0 && summary.profit > 0.0 { summary.profit * 0.15 } else { 0.0 }`. -/
def profitSummaryTax (summary : MonthSummary) : ℚ :=
  if 20000 < summary.sold_amount ∧ 0 < summary.profit then summary.profit * 0.15 else 0

/-- Embeds the CLI symbol canonicalisation of `parse_command` in
`src/bin/cli/main.rs` (`.to_uppercase()`) composed with `Portfolio::buy`. -/
def cliBuy (p : Portfolio) (symbol : String) (quantity : ℕ) (price : ℚ)
    (datetime : DateTime) : Portfolio :=
  p.buy symbol.toUpper quantity price datetime

/-- Embeds the CLI symbol canonicalisation of `parse_command` in
`src/bin/cli/main.rs` (`.to_uppercase()`) composed with `Portfolio::sell`. -/
def cliSell (p : Portfolio) (symbol : String) (quantity : ℕ) (price : ℚ)
    (datetime : DateTime) : Portfolio × Option ℚ :=
  p.sell symbol.toUpper quantity price datetime

/-! ## Basic facts about the embedded operations -/

/-- A concrete timestamp with absolute instant `a` (January 2024), used by
concrete scenarios. -/
def dtOf (a : ℤ) : DateTime :=
  ⟨a, 2024, 1, by omega, by omega⟩

/-- A concrete Buy trade without split adjustments. -/
def buyT (q : ℕ) (pr : ℚ) (a : ℤ) : Trade :=
  { quantity := q, price := pr, datetime := dtOf a, kind := TradeKind.Buy, splits := [] }

/-- A concrete Sell trade without split adjustments. -/
def sellT (q : ℕ) (pr : ℚ) (a : ℤ) : Trade :=
  { quantity := q, price := pr, datetime := dtOf a, kind := TradeKind.Sell, splits := [] }

/-- A concrete Buy trade carrying split adjustments. -/
def buyTS (q : ℕ) (pr : ℚ) (a : ℤ) (sps : List Split) : Trade :=
  { quantity := q, price := pr, datetime := dtOf a, kind := TradeKind.Buy, splits := sps }

/-- The Buy trade record created by `Stock::buy`. -/
def buyTrade (q : ℕ) (pr : ℚ) (dt : DateTime) : Trade :=
  { quantity := q, price := pr, datetime := dt, kind := TradeKind.Buy, splits := [] }

/-- The Sell trade record created by `Stock::sell`. -/
def sellTrade (q : ℕ) (pr : ℚ) (dt : DateTime) : Trade :=
  { quantity := q, price := pr, datetime := dt, kind := TradeKind.Sell, splits := [] }


theorem u32ofRat_lt (x : ℚ) : u32ofRat x < 2 ^ 32 := by
  unfold u32ofRat
  omega

theorem quantityAt_lt (t : Trade) (d : DateTime) : t.quantityAt d < 2 ^ 32 :=
  u32ofRat_lt _

theorem u32ofRat_natCast (n : ℕ) (h : n < 2 ^ 32) : u32ofRat (n : ℚ) = n := by
  unfold u32ofRat
  rw [Int.floor_natCast]
  simp
  omega

theorem split_ratio_nil (t : Trade) (d : DateTime) (h : t.splits = []) :
    t.split_ratio d = 1 := by
  unfold Trade.split_ratio
  rw [h]
  rfl

theorem quantityAt_nil (t : Trade) (d : DateTime) (h : t.splits = [])
    (hq : t.quantity < 2 ^ 32) : t.quantityAt d = t.quantity := by
  unfold Trade.quantityAt
  rw [split_ratio_nil t d h, mul_one, u32ofRat_natCast _ hq]

theorem priceAt_nil (t : Trade) (d : DateTime) (h : t.splits = []) :
    t.priceAt d = t.price := by
  unfold Trade.priceAt
  rw [split_ratio_nil t d h, div_one]

/-- No split adjustment ever carries a timestamp before the trade it is
attached to, so a trade's split-ratio product relative to its own timestamp
is the empty product. -/
theorem split_ratio_own (t : Trade) (h : ∀ sp ∈ t.splits, t.datetime.abs ≤ sp.datetime.abs) :
    t.split_ratio t.datetime = 1 := by
  unfold Trade.split_ratio
  have : t.splits.filter (fun sp => sp.datetime.abs < t.datetime.abs) = [] := by
    rw [List.filter_eq_nil_iff]
    intro sp hsp
    have := h sp hsp
    simp only [decide_eq_true_eq]
    omega
  rw [this]
  rfl

theorem quantityAt_own (t : Trade) (h : ∀ sp ∈ t.splits, t.datetime.abs ≤ sp.datetime.abs)
    (hq : t.quantity < 2 ^ 32) : t.quantityAt t.datetime = t.quantity := by
  unfold Trade.quantityAt
  rw [split_ratio_own t h, mul_one, u32ofRat_natCast _ hq]

theorem priceAt_own (t : Trade) (h : ∀ sp ∈ t.splits, t.datetime.abs ≤ sp.datetime.abs) :
    t.priceAt t.datetime = t.price := by
  unfold Trade.priceAt
  rw [split_ratio_own t h, div_one]

theorem tradeLE_trans (a b c : Trade) (h1 : tradeLE a b = true) (h2 : tradeLE b c = true) :
    tradeLE a c = true := by
  simp only [tradeLE, decide_eq_true_eq] at *
  omega

theorem tradeLE_total (a b : Trade) : (tradeLE a b || tradeLE b a) = true := by
  simp only [tradeLE, Bool.or_eq_true, decide_eq_true_eq]
  omega

/-- Within a ledger, `≤`-sortedness of the trade list by timestamp. -/
def SortedTrades (l : List Trade) : Prop :=
  l.Pairwise (fun a b => a.datetime.abs ≤ b.datetime.abs)

/-- `Stock::add_trade` always leaves the trade list sorted by timestamp. -/
theorem sorted_add_trade (s : Stock) (t : Trade) : SortedTrades (s.add_trade t).trades := by
  unfold Stock.add_trade SortedTrades
  have h := List.sorted_mergeSort tradeLE_trans tradeLE_total (s.trades ++ [t])
  exact h.imp (fun hab => by simpa [tradeLE] using hab)

theorem find?_replace (symbol : String) (st : Stock) :
    ∀ l : List (String × Stock), l.any (fun e => e.1 == symbol) = true →
      ((l.map (fun e => if e.1 == symbol then (e.1, st) else e)).find?
          (fun e => e.1 == symbol)).map (fun e => e.2) = some st := by
  intro l
  induction l with
  | nil => simp
  | cons a l ih =>
    intro h
    by_cases ha : a.1 == symbol
    · rw [List.map_cons, if_pos ha]
      simp [List.find?_cons, ha]
    · simp only [List.any_cons, ha, Bool.false_or] at h
      simp only [List.map_cons, ha, if_neg, List.find?_cons, Bool.false_eq_true]
      simpa [ha] using ih h

/-- Storing a stock and reading the same key back returns exactly that stock. -/
theorem getStock_setStock (p : Portfolio) (symbol : String) (st : Stock) :
    (p.setStock symbol st).getStock symbol = some st := by
  unfold Portfolio.setStock Portfolio.getStock
  by_cases h : p.stocks.any (fun e => e.1 == symbol)
  · rw [if_pos h]
    exact find?_replace symbol st p.stocks h
  · rw [if_neg h]
    simp only []
    rw [List.find?_append]
    have hn : p.stocks.find? (fun e => e.1 == symbol) = none := by
      rw [List.find?_eq_none]
      intro e he
      rw [List.any_eq_true] at h
      push_neg at h
      simpa using h e he
    simp [hn]

/-! ## C6 — tax rule of `profit_summary` -/

/-- C6: for every month summary, the computed tax equals `profit * 0.15`
exactly on the branch `proceeds > 20000 ∧ profit > 0` (both strict) and `0`
otherwise; in particular proceeds of exactly `20000`, or non-positive profit,
yield tax `0`. -/
theorem C6_tax_rule (s : MonthSummary) :
    (20000 < s.sold_amount ∧ 0 < s.profit → profitSummaryTax s = s.profit * 0.15) ∧
    (¬(20000 < s.sold_amount ∧ 0 < s.profit) → profitSummaryTax s = 0) ∧
    (s.sold_amount = 20000 → profitSummaryTax s = 0) ∧
    (s.profit ≤ 0 → profitSummaryTax s = 0) := by
  refine ⟨fun h => ?_, fun h => ?_, fun h => ?_, fun h => ?_⟩ <;> unfold profitSummaryTax
  · rw [if_pos h]
  · rw [if_neg h]
  · rw [if_neg]
    rintro ⟨h1, -⟩
    rw [h] at h1
    exact lt_irrefl _ h1
  · rw [if_neg]
    rintro ⟨-, h2⟩
    exact absurd h2 (not_lt.mpr h)

theorem C6_tax_rule_witness :
    profitSummaryTax ⟨1000, 30000⟩ = 1000 * 0.15 ∧
    profitSummaryTax ⟨-5, 30000⟩ = 0 ∧
    profitSummaryTax ⟨1000, 20000⟩ = 0 :=
  ⟨(C6_tax_rule ⟨1000, 30000⟩).1 ⟨by norm_num, by norm_num⟩,
   (C6_tax_rule ⟨-5, 30000⟩).2.2.2 (by norm_num),
   (C6_tax_rule ⟨1000, 20000⟩).2.2.1 rfl⟩

/-! ## C2 — sell failure condition and absence of partial mutation -/

theorem sell_eq_of_none (p : Portfolio) (symbol : String) (q : ℕ) (price : ℚ) (d : DateTime)
    (hg : p.getStock symbol = none) : p.sell symbol q price d = (p, none) := by
  unfold Portfolio.sell
  rw [hg]

theorem sell_eq_of_some (p : Portfolio) (symbol : String) (q : ℕ) (price : ℚ) (d : DateTime)
    (st : Stock) (hg : p.getStock symbol = some st) :
    p.sell symbol q price d =
      match st.sell q price d with
      | none => (p, none)
      | some (st2, profit) => (p.setStock symbol st2, some profit) := by
  unfold Portfolio.sell
  rw [hg]

theorem stock_sell_pos (s : Stock) (q : ℕ) (price : ℚ) (d : DateTime)
    (hq : q ≤ s.quantity d) :
    s.sell q price d =
      some (s.add_trade (sellTrade q price d), s.calculate_profit (sellTrade q price d)) := by
  unfold Stock.sell sellTrade
  rw [if_pos hq]

theorem stock_sell_neg (s : Stock) (q : ℕ) (price : ℚ) (d : DateTime)
    (hq : ¬q ≤ s.quantity d) : s.sell q price d = none := by
  unfold Stock.sell
  rw [if_neg hq]

/-- C2: `Portfolio::sell` fails exactly when the symbol has no ledger or
`quantity_as_of(timestamp) < quantity`, and on failure the portfolio is left
entirely unmodified (no partial Sell trade, no new ledger). -/
theorem C2_sell_failure (p : Portfolio) (symbol : String) (q : ℕ) (price : ℚ) (d : DateTime) :
    ((p.sell symbol q price d).2 = none ↔
      p.getStock symbol = none ∨ ∃ st, p.getStock symbol = some st ∧ st.quantity d < q) ∧
    ((p.sell symbol q price d).2 = none → (p.sell symbol q price d).1 = p) := by
  cases hg : p.getStock symbol with
  | none =>
    rw [sell_eq_of_none p symbol q price d hg]
    simp
  | some st =>
    rw [sell_eq_of_some p symbol q price d st hg]
    by_cases hq : q ≤ st.quantity d
    · rw [stock_sell_pos st q price d hq]
      simp only [hg]
      constructor
      · constructor
        · intro h
          simp at h
        · rintro (h | ⟨st2, hst2, hlt⟩)
          · simp at h
          · cases Option.some.inj hst2
            omega
      · intro h
        simp at h
    · rw [stock_sell_neg st q price d hq]
      simp [hg]
      omega

theorem C2_sell_failure_witness :
    (Portfolio.new.sell "A" 1 10 (dtOf 1)).2 = none ∧
    (Portfolio.new.sell "A" 1 10 (dtOf 1)).1 = Portfolio.new := by
  have hfail : (Portfolio.new.sell "A" 1 10 (dtOf 1)).2 = none :=
    (C2_sell_failure Portfolio.new "A" 1 10 (dtOf 1)).1.mpr
      (Or.inl (by simp [Portfolio.getStock, Portfolio.new]))
  exact ⟨hfail, (C2_sell_failure Portfolio.new "A" 1 10 (dtOf 1)).2 hfail⟩

/-! ## C9 — symbol routing is case-sensitive in `Portfolio`, canonicalised in the CLI -/

/-- C9 (counterexample): at the `Portfolio` level the mapping is *not*
case-insensitive: after `buy("aapl")`, a `sell("AAPL")` does not route to the
same ledger — it finds no ledger at all and fails, even though one share is
owned under `"aapl"`. -/
theorem C9_counterexample :
    ((Portfolio.new.buy "aapl" 1 10 (dtOf 1)).sell "AAPL" 1 20 (dtOf 2)).2 = none ∧
    (Portfolio.new.buy "aapl" 1 10 (dtOf 1)).getStock "AAPL" = none ∧
    ((Portfolio.new.buy "aapl" 1 10 (dtOf 1)).getStock "aapl").isSome = true := by
  refine ⟨?_, ?_, ?_⟩ <;>
    simp [Portfolio.sell, Portfolio.buy, Portfolio.setStock, Portfolio.getStock,
      Portfolio.new, List.find?]

/-- C9 (amended): the `Portfolio` map is keyed by the exact string, so
case-insensitivity is established one layer up: the CLI (`parse_command`)
uppercases every symbol before invoking the portfolio, hence CLI operations
with differently-cased spellings of one symbol route to the same single
ledger. -/
theorem C9_amended (p : Portfolio) (s1 s2 : String) (q1 q2 : ℕ) (pr1 pr2 : ℚ)
    (d1 d2 : DateTime) (h : s1.toUpper = s2.toUpper) :
    ((cliBuy p s1 q1 pr1 d1).getStock s2.toUpper).isSome = true ∧
    cliSell (cliBuy p s1 q1 pr1 d1) s2 q2 pr2 d2 =
      (cliBuy p s1 q1 pr1 d1).sell s1.toUpper q2 pr2 d2 := by
  constructor
  · rw [← h]
    unfold cliBuy Portfolio.buy
    rw [getStock_setStock]
    rfl
  · unfold cliSell
    rw [← h]

theorem C9_amended_witness :
    ((cliBuy Portfolio.new "aapl" 2 10 (dtOf 1)).getStock "aapl".toUpper).isSome = true ∧
    cliSell (cliBuy Portfolio.new "aapl" 2 10 (dtOf 1)) "aapl" 1 20 (dtOf 2) =
      (cliBuy Portfolio.new "aapl" 2 10 (dtOf 1)).sell "aapl".toUpper 1 20 (dtOf 2) :=
  C9_amended Portfolio.new "aapl" "aapl" 2 1 10 20 (dtOf 1) (dtOf 2) rfl

/-! ## C4 — average cost resets to zero on a fully-closed position -/

theorem avgStep_zero (date : DateTime) (st : ℕ × ℚ) (t : Trade)
    (h : (avgStep date st t).1 = 0) : (avgStep date st t).2 = 0 := by
  cases hk : t.kind
  · simp only [avgStep, hk] at h ⊢
    rw [h]
    simp
  · simp only [avgStep, hk] at h ⊢
    rw [if_pos h]

theorem avgGo_zero (date : DateTime) :
    ∀ (l : List Trade) (st : ℕ × ℚ), (st.1 = 0 → st.2 = 0) →
      (avgGo date l st).1 = 0 → (avgGo date l st).2 = 0 := by
  intro l
  induction l with
  | nil => exact fun st h => h
  | cons t ts ih =>
    intro st h
    simp only [avgGo]
    by_cases hb : date.abs ≤ t.datetime.abs
    · rw [if_pos hb]
      exact h
    · rw [if_neg hb]
      exact ih (avgStep date st t) (avgStep_zero date st t)

/-- C4: in the `average_purchase_price` replay, whenever the running quantity
reaches exactly `0` the running average is `0`; hence whenever the replayed
state as of `d` has quantity `0` (e.g. after selling the full held quantity),
`average_purchase_price d = 0`; and a re-opening Buy from the zeroed state
starts a fresh average equal to that Buy's own (split-adjusted) price. -/
theorem C4_avg_reset (s : Stock) (d : DateTime) :
    ((avgGo d s.trades (0, 0)).1 = 0 → s.average_purchase_price d = 0) ∧
    (∀ t : Trade, t.kind = TradeKind.Buy → 0 < t.quantityAt d →
      avgStep d (0, 0) t = (t.quantityAt d, t.priceAt d)) := by
  constructor
  · intro h
    unfold Stock.average_purchase_price
    exact avgGo_zero d s.trades (0, 0) (fun _ => rfl) h
  · intro t hk hq
    have h32 : t.quantityAt d < 2 ^ 32 := quantityAt_lt t d
    have hne : ((t.quantityAt d : ℕ) : ℚ) ≠ 0 := by
      exact_mod_cast (by omega : t.quantityAt d ≠ 0)
    simp only [avgStep, hk]
    have hmod : (0 + t.quantityAt d) % 2 ^ 32 = t.quantityAt d := by omega
    rw [hmod]
    simp only [Prod.mk.injEq, true_and]
    field_simp

theorem C4_avg_reset_witness :
    (Stock.mk "A" [buyT 2 10 1, sellT 2 20 2]).average_purchase_price (dtOf 3) = 0 ∧
    avgStep (dtOf 3) (0, 0) (buyT 3 7 1) = (3, 7) := by
  constructor
  · apply (C4_avg_reset (Stock.mk "A" [buyT 2 10 1, sellT 2 20 2]) (dtOf 3)).1
    norm_num [avgGo, avgStep, Trade.quantityAt, Trade.priceAt, Trade.split_ratio,
      u32ofRat, dtOf, buyT, sellT]
    try simp
    try norm_num
  · have h := (C4_avg_reset (Stock.mk "A" []) (dtOf 3)).2 (buyT 3 7 1) rfl
      (by norm_num [Trade.quantityAt, Trade.split_ratio, u32ofRat, buyT]
          try simp
          try norm_num)
    rw [h]
    simp only [Prod.mk.injEq]
    constructor
    · norm_num [Trade.quantityAt, Trade.split_ratio, u32ofRat, buyT]
      try simp
      try norm_num
    · norm_num [Trade.priceAt, Trade.split_ratio, buyT]

/-! ## C10 — effective quantity truncates, effective price does not -/

theorem foldl_mul_pos : ∀ (l : List Split) (init : ℚ), 0 < init →
    (∀ sp ∈ l, 0 < sp.ratio) → 0 < l.foldl (fun acc sp => acc * sp.ratio) init := by
  intro l
  induction l with
  | nil => exact fun init h _ => h
  | cons sp l ih =>
    intro init hinit h
    simp only [List.foldl_cons]
    exact ih _ (mul_pos hinit (h sp (List.mem_cons_self sp l)))
      (fun x hx => h x (List.mem_cons_of_mem sp hx))

theorem split_ratio_pos (t : Trade) (d : DateTime) (h : ∀ sp ∈ t.splits, 0 < sp.ratio) :
    0 < t.split_ratio d :=
  foldl_mul_pos _ 1 one_pos (fun sp hsp => h sp (List.mem_of_mem_filter hsp))

/-- C10: a trade's effective quantity as of `d` is the original quantity times
the product of the ratios of its adjustments dated strictly before `d`,
truncated to a whole number of shares, while the effective unit price divides
by the same *untruncated* product — so `effective price × effective quantity`
can differ from `price × quantity` when the product is not an integer (e.g. a
3-for-2 split of 3 shares at 10: `20/3 × 4 ≠ 30`). -/
theorem C10_effective (t : Trade) (d : DateTime)
    (hpos : ∀ sp ∈ t.splits, 0 < sp.ratio)
    (hbound : (t.quantity : ℚ) * t.split_ratio d < 2 ^ 32) :
    ((t.quantityAt d : ℤ) = ⌊(t.quantity : ℚ) * t.split_ratio d⌋ ∧
      t.priceAt d = t.price / t.split_ratio d) ∧
    (buyTS 3 10 1 [⟨3/2, dtOf 2⟩]).priceAt (dtOf 10) *
        ((buyTS 3 10 1 [⟨3/2, dtOf 2⟩]).quantityAt (dtOf 10) : ℚ) ≠
      (buyTS 3 10 1 [⟨3/2, dtOf 2⟩]).price *
        ((buyTS 3 10 1 [⟨3/2, dtOf 2⟩]).quantity : ℚ) := by
  constructor
  · constructor
    · unfold Trade.quantityAt u32ofRat
      have hx : (0 : ℚ) ≤ (t.quantity : ℚ) * t.split_ratio d :=
        mul_nonneg (Nat.cast_nonneg _) (le_of_lt (split_ratio_pos t d hpos))
      have hfl : 0 ≤ ⌊(t.quantity : ℚ) * t.split_ratio d⌋ := Int.floor_nonneg.mpr hx
      have hub : ⌊(t.quantity : ℚ) * t.split_ratio d⌋ < 2 ^ 32 := by
        have := Int.floor_le ((t.quantity : ℚ) * t.split_ratio d)
        have h2 : (⌊(t.quantity : ℚ) * t.split_ratio d⌋ : ℚ) < 2 ^ 32 := lt_of_le_of_lt this hbound
        exact_mod_cast h2
      omega
    · rfl
  · norm_num [Trade.priceAt, Trade.quantityAt, Trade.split_ratio, u32ofRat, buyTS, dtOf]
    try simp
    try norm_num

theorem C10_effective_witness :
    ((buyTS 3 10 1 [⟨3/2, dtOf 2⟩]).quantityAt (dtOf 10) : ℤ) =
      ⌊((buyTS 3 10 1 [⟨3/2, dtOf 2⟩]).quantity : ℚ) *
        (buyTS 3 10 1 [⟨3/2, dtOf 2⟩]).split_ratio (dtOf 10)⌋ ∧
    (buyTS 3 10 1 [⟨3/2, dtOf 2⟩]).priceAt (dtOf 10) =
      (buyTS 3 10 1 [⟨3/2, dtOf 2⟩]).price /
        (buyTS 3 10 1 [⟨3/2, dtOf 2⟩]).split_ratio (dtOf 10) :=
  (C10_effective (buyTS 3 10 1 [⟨3/2, dtOf 2⟩]) (dtOf 10)
    (by simp [buyTS]
        try norm_num)
    (by norm_num [Trade.split_ratio, buyTS, dtOf])).1

/-! ## C7 — ledgers stay sorted; queries see exactly the strict past, in order -/

theorem splitTrades_map_abs (r : ℚ) (T : DateTime) :
    ∀ l : List Trade, (splitTrades r T l).map (fun t => t.datetime.abs) =
      l.map (fun t => t.datetime.abs) := by
  intro l
  induction l with
  | nil => rfl
  | cons t ts ih =>
    by_cases hb : T.abs ≤ t.datetime.abs
    · rw [splitTrades, if_pos hb]
    · rw [splitTrades, if_neg hb, List.map_cons, List.map_cons, ih]

theorem sortedTrades_iff_map (l : List Trade) :
    SortedTrades l ↔ (l.map (fun t => t.datetime.abs)).Pairwise (fun a b => a ≤ b) := by
  unfold SortedTrades
  exact (List.pairwise_map).symm

theorem sorted_splitTrades (r : ℚ) (T : DateTime) (l : List Trade)
    (h : SortedTrades l) : SortedTrades (splitTrades r T l) := by
  rw [sortedTrades_iff_map, splitTrades_map_abs]
  exact (sortedTrades_iff_map l).mp h

theorem mem_setStock (p : Portfolio) (symbol : String) (st : Stock)
    (e : String × Stock) (he : e ∈ (p.setStock symbol st).stocks) :
    e.2 = st ∨ e ∈ p.stocks := by
  unfold Portfolio.setStock at he
  by_cases h : p.stocks.any (fun e => e.1 == symbol)
  · rw [if_pos h] at he
    simp only [List.mem_map] at he
    obtain ⟨a, ha, hae⟩ := he
    by_cases hk : a.1 == symbol
    · rw [if_pos hk] at hae
      exact Or.inl (by rw [← hae])
    · rw [if_neg hk] at hae
      exact Or.inr (hae ▸ ha)
  · rw [if_neg h] at he
    rcases List.mem_append.mp he with h1 | h2
    · exact Or.inr h1
    · simp only [List.mem_singleton] at h2
      exact Or.inl (by rw [h2])

theorem getStock_mem (p : Portfolio) (symbol : String) (st : Stock)
    (h : p.getStock symbol = some st) : ∃ k, (k, st) ∈ p.stocks := by
  unfold Portfolio.getStock at h
  cases hf : p.stocks.find? (fun e => e.1 == symbol) with
  | none => rw [hf] at h; simp at h
  | some e =>
    rw [hf] at h
    simp at h
    subst h
    exact ⟨e.1, by simpa using List.mem_of_find?_eq_some hf⟩

/-- Every portfolio reachable through the public entry points from
`Portfolio::new` (`buy`, `sell` — either outcome —, `split`). -/
inductive Reachable : Portfolio → Prop where
  | new : Reachable Portfolio.new
  | buy (p : Portfolio) (symbol : String) (quantity : ℕ) (price : ℚ) (datetime : DateTime) :
      Reachable p → Reachable (p.buy symbol quantity price datetime)
  | sell (p : Portfolio) (symbol : String) (quantity : ℕ) (price : ℚ) (datetime : DateTime) :
      Reachable p → Reachable (p.sell symbol quantity price datetime).1
  | split (p : Portfolio) (symbol : String) (ratio : ℚ) (datetime : DateTime) :
      Reachable p → Reachable (p.split symbol ratio datetime)

theorem sorted_getD_stock (p : Portfolio) (symbol : String)
    (hp : ∀ e ∈ p.stocks, SortedTrades e.2.trades) :
    SortedTrades ((p.getStock symbol).getD (Stock.new symbol)).trades := by
  cases hg : p.getStock symbol with
  | none => exact List.Pairwise.nil
  | some st =>
    obtain ⟨k, hk⟩ := getStock_mem p symbol st hg
    simpa using hp (k, st) hk

theorem reachable_sorted (p : Portfolio) (hp : Reachable p) :
    ∀ e ∈ p.stocks, SortedTrades e.2.trades := by
  induction hp with
  | new => intro e he; simp [Portfolio.new] at he
  | buy p symbol quantity price datetime _ ih =>
    intro e he
    rcases mem_setStock _ _ _ _ he with h | h
    · rw [h]
      exact sorted_add_trade _ _
    · exact ih e h
  | sell p symbol quantity price datetime _ ih =>
    intro e he
    cases hg : p.getStock symbol with
    | none =>
      rw [sell_eq_of_none p symbol quantity price datetime hg] at he
      exact ih e he
    | some st =>
      rw [sell_eq_of_some p symbol quantity price datetime st hg] at he
      by_cases hq : quantity ≤ st.quantity datetime
      · rw [stock_sell_pos st quantity price datetime hq] at he
        rcases mem_setStock _ _ _ _ he with h | h
        · rw [h]
          exact sorted_add_trade _ _
        · exact ih e h
      · rw [stock_sell_neg st quantity price datetime hq] at he
        exact ih e he
  | split p symbol ratio datetime _ ih =>
    intro e he
    rcases mem_setStock _ _ _ _ he with h | h
    · rw [h]
      exact sorted_splitTrades _ _ _ (sorted_getD_stock p symbol ih)
    · exact ih e h

theorem quantityGo_filter (d : DateTime) :
    ∀ (l : List Trade) (a : ℤ), SortedTrades l →
      quantityGo d l a = (l.filter (fun t => decide (t.datetime.abs < d.abs))).foldl
        (fun q t => wrap32 (q + i32sat (tradeSign t.kind * (t.quantityAt d : ℤ)))) a := by
  intro l
  induction l with
  | nil => intro a _; rfl
  | cons t ts ih =>
    intro a hs
    obtain ⟨h1, h2⟩ := List.pairwise_cons.mp hs
    by_cases hb : d.abs ≤ t.datetime.abs
    · rw [quantityGo, if_pos hb]
      have hft : (t :: ts).filter (fun t => decide (t.datetime.abs < d.abs)) = [] := by
        rw [List.filter_eq_nil_iff]
        intro x hx
        rcases List.mem_cons.mp hx with rfl | hmem
        · simp only [decide_eq_true_eq]
          omega
        · have := h1 x hmem
          simp only [decide_eq_true_eq]
          omega
      rw [hft]
      rfl
    · rw [quantityGo, if_neg hb]
      have hcons : (t :: ts).filter (fun t => decide (t.datetime.abs < d.abs)) =
          t :: ts.filter (fun t => decide (t.datetime.abs < d.abs)) := by
        rw [List.filter_cons_of_pos]
        simp only [decide_eq_true_eq]
        omega
      rw [hcons, List.foldl_cons]
      exact ih _ h2

theorem avgGo_filter (d : DateTime) :
    ∀ (l : List Trade) (st : ℕ × ℚ), SortedTrades l →
      avgGo d l st = (l.filter (fun t => decide (t.datetime.abs < d.abs))).foldl
        (avgStep d) st := by
  intro l
  induction l with
  | nil => intro st _; rfl
  | cons t ts ih =>
    intro st hs
    obtain ⟨h1, h2⟩ := List.pairwise_cons.mp hs
    by_cases hb : d.abs ≤ t.datetime.abs
    · rw [avgGo, if_pos hb]
      have hft : (t :: ts).filter (fun t => decide (t.datetime.abs < d.abs)) = [] := by
        rw [List.filter_eq_nil_iff]
        intro x hx
        rcases List.mem_cons.mp hx with rfl | hmem
        · simp only [decide_eq_true_eq]
          omega
        · have := h1 x hmem
          simp only [decide_eq_true_eq]
          omega
      rw [hft]
      rfl
    · rw [avgGo, if_neg hb]
      have hcons : (t :: ts).filter (fun t => decide (t.datetime.abs < d.abs)) =
          t :: ts.filter (fun t => decide (t.datetime.abs < d.abs)) := by
        rw [List.filter_cons_of_pos]
        simp only [decide_eq_true_eq]
        omega
      rw [hcons, List.foldl_cons]
      exact ih _ h2

/-- C7: every ledger reachable through the buy/sell/split entry points keeps
its trade list in non-decreasing timestamp order, and on a sorted ledger each
point-in-time query (`quantity`, `average_purchase_price`) processes exactly
the trades with timestamp strictly before the reference date, in list order. -/
theorem C7_sorted_queries :
    (∀ p : Portfolio, Reachable p → ∀ e ∈ p.stocks, SortedTrades e.2.trades) ∧
    (∀ (s : Stock) (d : DateTime), SortedTrades s.trades →
      s.quantity d = (((s.trades.filter
            (fun (t : Trade) => decide (t.datetime.abs < d.abs))).foldl
          (fun (q : ℤ) (t : Trade) =>
            wrap32 (q + i32sat (tradeSign t.kind * (t.quantityAt d : ℤ)))) (0 : ℤ)) %
            2 ^ 32).toNat ∧
      s.average_purchase_price d = ((s.trades.filter
          (fun (t : Trade) => decide (t.datetime.abs < d.abs))).foldl (avgStep d) (0, 0)).2) := by
  constructor
  · exact reachable_sorted
  · intro s d hs
    constructor
    · unfold Stock.quantity
      rw [quantityGo_filter d s.trades 0 hs]
    · unfold Stock.average_purchase_price
      rw [avgGo_filter d s.trades (0, 0) hs]

theorem C7_sorted_queries_witness :
    (∀ e ∈ (Portfolio.new.buy "A" 1 10 (dtOf 1)).stocks, SortedTrades e.2.trades) ∧
    ((Stock.mk "A" [buyT 1 10 1]).quantity (dtOf 2) =
      ((((Stock.mk "A" [buyT 1 10 1]).trades.filter
          (fun (t : Trade) => decide (t.datetime.abs < (dtOf 2).abs))).foldl
        (fun (q : ℤ) (t : Trade) =>
          wrap32 (q + i32sat (tradeSign t.kind * (t.quantityAt (dtOf 2) : ℤ)))) (0 : ℤ)) %
          2 ^ 32).toNat) :=
  ⟨C7_sorted_queries.1 (Portfolio.new.buy "A" 1 10 (dtOf 1))
      (Reachable.buy Portfolio.new "A" 1 10 (dtOf 1) Reachable.new),
   (C7_sorted_queries.2 (Stock.mk "A" [buyT 1 10 1]) (dtOf 2)
      (by simp [SortedTrades])).1⟩

/-! ## C1 — successful sell: profit against the pre-insertion average -/

/-- C1: when the symbol has a ledger and `q ≤ quantity_as_of(t)`, `sell`
succeeds and returns `(price − average_cost_as_of(t)) × q` with the average
evaluated on the ledger *before* the Sell trade is inserted; the Sell trade is
then appended and the ledger re-sorted by timestamp (the new trade list is a
sorted permutation of the old list plus the new Sell trade). -/
theorem C1_sell_success (p : Portfolio) (symbol : String) (q : ℕ) (price : ℚ) (d : DateTime)
    (st : Stock) (hst : p.getStock symbol = some st) (hq : q ≤ st.quantity d) :
    ∃ st2 : Stock,
      p.sell symbol q price d =
        (p.setStock symbol st2, some ((price - st.average_purchase_price d) * (q : ℚ))) ∧
      st2.trades.Perm (st.trades ++
        [{ quantity := q, price := price, datetime := d,
           kind := TradeKind.Sell, splits := [] }]) ∧
      SortedTrades st2.trades := by
  refine ⟨st.add_trade { quantity := q, price := price, datetime := d,
                         kind := TradeKind.Sell, splits := [] }, ?_, ?_, ?_⟩
  · rw [sell_eq_of_some p symbol q price d st hst, stock_sell_pos st q price d hq]
    rfl
  · unfold Stock.add_trade
    exact List.mergeSort_perm _ _
  · exact sorted_add_trade _ _

theorem C1_sell_success_witness :
    ∃ st2 : Stock,
      (Portfolio.new.buy "A" 2 10 (dtOf 1)).sell "A" 1 20 (dtOf 2) =
        ((Portfolio.new.buy "A" 2 10 (dtOf 1)).setStock "A" st2,
          some ((20 - ((Stock.new "A").buy 2 10 (dtOf 1)).average_purchase_price (dtOf 2)) *
            ((1 : ℕ) : ℚ))) ∧
      st2.trades.Perm (((Stock.new "A").buy 2 10 (dtOf 1)).trades ++
        [{ quantity := 1, price := 20, datetime := dtOf 2,
           kind := TradeKind.Sell, splits := [] }]) ∧
      SortedTrades st2.trades := by
  have htr : ((Stock.new "A").buy 2 10 (dtOf 1)).trades = [buyT 2 10 1] := by
    unfold Stock.buy Stock.add_trade
    rw [List.mergeSort_of_sorted (by simp [Stock.new])]
    rfl
  have hst : (Portfolio.new.buy "A" 2 10 (dtOf 1)).getStock "A" =
      some ((Stock.new "A").buy 2 10 (dtOf 1)) := by
    unfold Portfolio.buy
    have hn : Portfolio.new.getStock "A" = none := by
      simp [Portfolio.getStock, Portfolio.new]
    rw [hn]
    exact getStock_setStock _ _ _
  have hq : 1 ≤ ((Stock.new "A").buy 2 10 (dtOf 1)).quantity (dtOf 2) := by
    unfold Stock.quantity
    rw [htr]
    norm_num [quantityGo, Trade.quantityAt, Trade.split_ratio, u32ofRat, i32sat, wrap32,
      tradeSign, dtOf, buyT]
    try simp
    try norm_num
  exact C1_sell_success (Portfolio.new.buy "A" 2 10 (dtOf 1)) "A" 1 20 (dtOf 2)
    ((Stock.new "A").buy 2 10 (dtOf 1)) hst hq

/-! ## C5 — month-by-month profit aggregation -/

/-- The Sell trades of `year` that fall into bucket `m`. -/
def sellsOf (l : List Trade) (year : ℤ) (m : Fin 12) : List Trade :=
  l.filter (fun (t : Trade) => decide (t.kind = TradeKind.Sell ∧
    t.datetime.year = year ∧ monthIndex t.datetime = m))

theorem profit_fold (s : Stock) (year : ℤ) (m : Fin 12) :
    ∀ (l : List Trade) (arr : Fin 12 → MonthSummary),
      ((l.foldl (profitStep s year) arr) m).profit = (arr m).profit +
        ((sellsOf l year m).map (fun t => s.calculate_profit t)).sum ∧
      ((l.foldl (profitStep s year) arr) m).sold_amount = (arr m).sold_amount +
        ((sellsOf l year m).map (fun t => t.price * (t.quantity : ℚ))).sum := by
  intro l
  induction l with
  | nil => intro arr; simp [sellsOf]
  | cons t ts ih =>
    intro arr
    rw [List.foldl_cons]
    by_cases hk : t.kind = TradeKind.Sell
    · by_cases hy : t.datetime.year = year
      · have hstep : profitStep s year arr t = fun j =>
            if j = monthIndex t.datetime then
              ⟨(arr j).profit + s.calculate_profit t,
               (arr j).sold_amount + t.price * (t.quantity : ℚ)⟩
            else arr j := by
          unfold profitStep
          rw [if_neg (by simp [hk]), if_neg (by simp [hy])]
        by_cases hm : monthIndex t.datetime = m
        · have hfil : sellsOf (t :: ts) year m = t :: sellsOf ts year m := by
            unfold sellsOf
            rw [List.filter_cons_of_pos]
            simp [hk, hy, hm]
          rw [hfil, List.map_cons, List.map_cons, List.sum_cons, List.sum_cons]
          obtain ⟨ihp, ihs⟩ := ih (profitStep s year arr t)
          rw [ihp, ihs, hstep]
          simp only [if_pos hm.symm]
          constructor <;> ring
        · have hfil : sellsOf (t :: ts) year m = sellsOf ts year m := by
            unfold sellsOf
            rw [List.filter_cons_of_neg]
            simp [hk, hy, hm]
          rw [hfil]
          obtain ⟨ihp, ihs⟩ := ih (profitStep s year arr t)
          rw [ihp, ihs, hstep]
          simp only [if_neg (fun h => hm (Eq.symm h))]
          constructor <;> first | rfl | trivial
      · have hstep : profitStep s year arr t = arr := by
          unfold profitStep
          rw [if_neg (by simp [hk]), if_pos (by simp [hy])]
        have hfil : sellsOf (t :: ts) year m = sellsOf ts year m := by
          unfold sellsOf
          rw [List.filter_cons_of_neg]
          simp [hy]
        rw [hfil, hstep]
        exact ih arr
    · have hstep : profitStep s year arr t = arr := by
        unfold profitStep
        rw [if_pos (by simp [hk])]
      have hfil : sellsOf (t :: ts) year m = sellsOf ts year m := by
        unfold sellsOf
        rw [List.filter_cons_of_neg]
        simp [hk]
      rw [hfil, hstep]
      exact ih arr

theorem portfolio_fold (year : ℤ) (m : Fin 12) :
    ∀ (l : List (String × Stock)) (arr : Fin 12 → MonthSummary),
      ((l.foldl (fun arr e => sumSummaries arr (e.2.get_profit_by_month year)) arr) m).profit =
        (arr m).profit + (l.map (fun e => (e.2.get_profit_by_month year m).profit)).sum ∧
      ((l.foldl (fun arr e => sumSummaries arr (e.2.get_profit_by_month year)) arr) m).sold_amount =
        (arr m).sold_amount + (l.map (fun e => (e.2.get_profit_by_month year m).sold_amount)).sum := by
  intro l
  induction l with
  | nil => intro arr; simp
  | cons e l ih =>
    intro arr
    rw [List.foldl_cons, List.map_cons, List.map_cons, List.sum_cons, List.sum_cons]
    obtain ⟨ihp, ihs⟩ := ih (sumSummaries arr (e.2.get_profit_by_month year))
    rw [ihp, ihs]
    unfold sumSummaries
    constructor <;> ring

/-- Predicate: a well-formed ledger as produced by the entry points — stored
quantities fit in `u32` and every split adjustment on a trade is dated at or
after the trade itself. -/
def WFStock (s : Stock) : Prop :=
  ∀ t ∈ s.trades, t.quantity < 2 ^ 32 ∧
    ∀ sp ∈ t.splits, t.datetime.abs ≤ sp.datetime.abs

/-- C5: `profit_by_month(year)` has 12 buckets (index 0 = January); each Sell
trade of that year contributes `effective price × effective quantity` (as of
its own timestamp, where the split-ratio product is still empty, so this
equals the raw `price × quantity` the code uses) to the proceeds and
`(effective price − average_cost_as_of(its timestamp)) × effective quantity`
to the profit of its calendar month's bucket; Buys and other years contribute
nothing; per-security arrays are summed element-wise. -/
theorem C5_profit_by_month (p : Portfolio) (year : ℤ)
    (hwf : ∀ e ∈ p.stocks, WFStock e.2) (m : Fin 12) :
    (p.profit_by_month year m).profit =
      (p.stocks.map (fun e =>
        ((sellsOf e.2.trades year m).map (fun t =>
          (t.priceAt t.datetime - e.2.average_purchase_price t.datetime) *
            (t.quantityAt t.datetime : ℚ))).sum)).sum ∧
    (p.profit_by_month year m).sold_amount =
      (p.stocks.map (fun e =>
        ((sellsOf e.2.trades year m).map (fun t =>
          t.priceAt t.datetime * (t.quantityAt t.datetime : ℚ))).sum)).sum := by
  unfold Portfolio.profit_by_month
  obtain ⟨hp, hs⟩ := portfolio_fold year m p.stocks emptySummary
  rw [hp, hs]
  simp only [emptySummary, zero_add]
  constructor
  · congr 1
    apply List.map_congr_left
    intro e he
    unfold Stock.get_profit_by_month
    obtain ⟨hp2, _⟩ := profit_fold e.2 year m e.2.trades emptySummary
    rw [hp2]
    simp only [emptySummary, zero_add]
    congr 1
    apply List.map_congr_left
    intro t ht
    have htm : t ∈ e.2.trades := List.mem_of_mem_filter ht
    obtain ⟨hq32, hsp⟩ := hwf e he t htm
    unfold Stock.calculate_profit
    rw [priceAt_own t hsp, quantityAt_own t hsp hq32]
  · congr 1
    apply List.map_congr_left
    intro e he
    unfold Stock.get_profit_by_month
    obtain ⟨_, hs2⟩ := profit_fold e.2 year m e.2.trades emptySummary
    rw [hs2]
    simp only [emptySummary, zero_add]
    congr 1
    apply List.map_congr_left
    intro t ht
    have htm : t ∈ e.2.trades := List.mem_of_mem_filter ht
    obtain ⟨hq32, hsp⟩ := hwf e he t htm
    rw [priceAt_own t hsp, quantityAt_own t hsp hq32]

theorem C5_profit_by_month_witness :
    ((Portfolio.mk [("A", Stock.mk "A" [buyT 1 10 1, sellT 1 30 2])]).profit_by_month 2024
        ⟨0, by omega⟩).profit =
      (((Portfolio.mk [("A", Stock.mk "A" [buyT 1 10 1, sellT 1 30 2])]).stocks.map (fun e =>
        ((sellsOf e.2.trades 2024 ⟨0, by omega⟩).map (fun t =>
          (t.priceAt t.datetime - e.2.average_purchase_price t.datetime) *
            (t.quantityAt t.datetime : ℚ))).sum)).sum) :=
  (C5_profit_by_month (Portfolio.mk [("A", Stock.mk "A" [buyT 1 10 1, sellT 1 30 2])]) 2024
    (by intro e he
        simp only [List.mem_singleton] at he
        subst he
        intro t ht
        simp only [List.mem_cons, List.mem_singleton] at ht
        rcases ht with rfl | rfl | h
        · simp [buyT]
        · simp [sellT]
        · simp at h)
    ⟨0, by omega⟩).1

/-! ## Shared machine-arithmetic lemmas for the split/quantity claims -/

theorem wrap32_eq (x : ℤ) (h1 : -(2 ^ 31) ≤ x) (h2 : x < 2 ^ 31) : wrap32 x = x := by
  unfold wrap32
  omega

theorem i32sat_eq (x : ℤ) (h1 : -(2 ^ 31) ≤ x) (h2 : x ≤ 2 ^ 31 - 1) : i32sat x = x := by
  unfold i32sat
  omega

theorem u32ofRat_double (q : ℕ) (h : 2 * q < 2 ^ 32) :
    u32ofRat ((q : ℚ) * 2) = 2 * q := by
  have : ((q : ℚ) * 2) = ((2 * q : ℕ) : ℚ) := by push_cast; ring
  rw [this, u32ofRat_natCast _ h]

/-- The loop body of `Stock::split`. -/
def addSplit (ratio : ℚ) (datetime : DateTime) (t : Trade) : Trade :=
  { t with splits := t.splits ++ [⟨ratio, datetime⟩] }

theorem splitTrades_eq_map (r : ℚ) (T : DateTime) :
    ∀ l : List Trade, (∀ t ∈ l, t.datetime.abs < T.abs) →
      splitTrades r T l = l.map (addSplit r T) := by
  intro l
  induction l with
  | nil => intro _; rfl
  | cons t ts ih =>
    intro h
    have ht := h t (List.mem_cons_self t ts)
    rw [splitTrades, if_neg (by omega), List.map_cons]
    exact congrArg _ (ih (fun x hx => h x (List.mem_cons_of_mem t hx)))

/-- Multiplicative composition of split adjustments on the ratio product. -/
theorem split_ratio_append (t : Trade) (sp : Split) (d : DateTime) :
    ({ t with splits := t.splits ++ [sp] } : Trade).split_ratio d =
      if sp.datetime.abs < d.abs then t.split_ratio d * sp.ratio
      else t.split_ratio d := by
  unfold Trade.split_ratio
  simp only [List.filter_append]
  by_cases h : sp.datetime.abs < d.abs
  · rw [if_pos h]
    have : List.filter (fun sp => decide (sp.datetime.abs < d.abs)) [sp] = [sp] := by
      simp [h]
    rw [this, List.foldl_append]
    rfl
  · rw [if_neg h]
    have : List.filter (fun sp => decide (sp.datetime.abs < d.abs)) [sp] = [] := by
      simp [h]
    rw [this, List.append_nil]

theorem addSplit_quantityAt_le (r : ℚ) (T : DateTime) (t : Trade) (d : DateTime)
    (hdT : d.abs ≤ T.abs) : (addSplit r T t).quantityAt d = t.quantityAt d := by
  unfold Trade.quantityAt addSplit
  rw [show ({ t with splits := t.splits ++ [⟨r, T⟩] } : Trade).split_ratio d =
      t.split_ratio d from by rw [split_ratio_append]; rw [if_neg (by simp; omega)]]

theorem addSplit_priceAt_le (r : ℚ) (T : DateTime) (t : Trade) (d : DateTime)
    (hdT : d.abs ≤ T.abs) : (addSplit r T t).priceAt d = t.priceAt d := by
  unfold Trade.priceAt addSplit
  rw [show ({ t with splits := t.splits ++ [⟨r, T⟩] } : Trade).split_ratio d =
      t.split_ratio d from by rw [split_ratio_append]; rw [if_neg (by simp; omega)]]

theorem addSplit_quantityAt_gt (t : Trade) (T d : DateTime) (hTd : T.abs < d.abs)
    (hsp : t.splits = []) (hb : 2 * t.quantity < 2 ^ 32) :
    (addSplit 2 T t).quantityAt d = 2 * t.quantity := by
  unfold Trade.quantityAt addSplit
  have hr : ({ t with splits := t.splits ++ [⟨(2 : ℚ), T⟩] } : Trade).split_ratio d =
      t.split_ratio d * 2 := by
    rw [split_ratio_append]
    rw [if_pos (by simpa using hTd)]
  rw [hr, split_ratio_nil t d hsp, one_mul]
  exact u32ofRat_double _ hb

theorem addSplit_priceAt_gt (t : Trade) (T d : DateTime) (hTd : T.abs < d.abs)
    (hsp : t.splits = []) : (addSplit 2 T t).priceAt d = t.price / 2 := by
  unfold Trade.priceAt addSplit
  have hr : ({ t with splits := t.splits ++ [⟨(2 : ℚ), T⟩] } : Trade).split_ratio d =
      t.split_ratio d * 2 := by
    rw [split_ratio_append]
    rw [if_pos (by simpa using hTd)]
  rw [hr, split_ratio_nil t d hsp, one_mul]

/-- Clean-replay check: starting from `q` held shares, every Sell of the list
is covered by the running quantity (no `u32` underflow can occur). -/
def cleanAcc : List Trade → ℕ → Bool
  | [], _ => true
  | t :: ts, q =>
    match t.kind with
    | TradeKind.Buy => cleanAcc ts (q + t.quantity)
    | TradeKind.Sell => decide (t.quantity ≤ q) && cleanAcc ts (q - t.quantity)

/-- Mathematical running quantity of a no-splits replay. -/
def runQty : List Trade → ℕ → ℕ
  | [], n => n
  | t :: ts, n =>
    match t.kind with
    | TradeKind.Buy => runQty ts (n + t.quantity)
    | TradeKind.Sell => runQty ts (n - t.quantity)

/-- Sum of all stored trade quantities of a list of trades. -/
def sumQty (l : List Trade) : ℕ :=
  (l.map (fun t => t.quantity)).sum

theorem runQty_le : ∀ (l : List Trade) (n : ℕ), runQty l n ≤ n + sumQty l := by
  intro l
  induction l with
  | nil => intro n; simp [runQty, sumQty]
  | cons t ts ih =>
    intro n
    cases hk : t.kind <;> simp only [runQty, hk]
    · have := ih (n + t.quantity)
      simp only [sumQty, List.map_cons, List.sum_cons] at *
      omega
    · have := ih (n - t.quantity)
      simp only [sumQty, List.map_cons, List.sum_cons] at *
      omega

theorem qtyGo_scale (T d : DateTime) (hTd : T.abs < d.abs) :
    ∀ (l : List Trade) (n : ℕ),
      (∀ t ∈ l, t.splits = []) →
      (∀ t ∈ l, t.datetime.abs < T.abs) →
      cleanAcc l n = true →
      2 * (n + sumQty l) < 2 ^ 31 →
      quantityGo d l (n : ℤ) = (runQty l n : ℤ) ∧
      quantityGo d (l.map (addSplit 2 T)) ((2 * n : ℕ) : ℤ) = ((2 * runQty l n : ℕ) : ℤ) := by
  intro l
  induction l with
  | nil => intro n _ _ _ _; exact ⟨rfl, rfl⟩
  | cons t ts ih =>
    intro n hsp hdt hclean hbound
    have ht_sp := hsp t (List.mem_cons_self t ts)
    have ht_dt := hdt t (List.mem_cons_self t ts)
    have hts_sp := fun x hx => hsp x (List.mem_cons_of_mem t hx)
    have hts_dt := fun x hx => hdt x (List.mem_cons_of_mem t hx)
    have hsum : sumQty (t :: ts) = t.quantity + sumQty ts := by
      simp [sumQty]
    have hq32 : t.quantity < 2 ^ 32 := by omega
    have hqAt : t.quantityAt d = t.quantity := quantityAt_nil t d ht_sp hq32
    have hqAt2 : (addSplit 2 T t).quantityAt d = 2 * t.quantity :=
      addSplit_quantityAt_gt t T d hTd ht_sp (by omega)
    have hnb : ¬d.abs ≤ t.datetime.abs := by omega
    have hnb2 : ¬d.abs ≤ (addSplit 2 T t).datetime.abs := by
      simp only [addSplit]
      omega
    cases hk : t.kind
    · -- Buy
      have hclean2 : cleanAcc ts (n + t.quantity) = true := by
        unfold cleanAcc at hclean
        rw [hk] at hclean
        exact hclean
      obtain ⟨ih1, ih2⟩ := ih (n + t.quantity) hts_sp hts_dt hclean2 (by omega)
      constructor
      · rw [quantityGo, if_neg hnb, hqAt, hk]
        rw [show tradeSign TradeKind.Buy = 1 from rfl, one_mul]
        rw [i32sat_eq _ (by omega) (by omega), wrap32_eq _ (by omega) (by omega)]
        rw [show ((n : ℤ) + t.quantity) = ((n + t.quantity : ℕ) : ℤ) from by push_cast; ring]
        rw [ih1]
        rw [runQty, hk]
      · rw [List.map_cons, quantityGo, if_neg hnb2, hqAt2]
        rw [show (addSplit 2 T t).kind = t.kind from rfl, hk]
        rw [show tradeSign TradeKind.Buy = 1 from rfl, one_mul]
        rw [i32sat_eq _ (by omega) (by push_cast; omega),
          wrap32_eq _ (by omega) (by push_cast; omega)]
        rw [show ((2 * n : ℕ) : ℤ) + ((2 * t.quantity : ℕ) : ℤ) =
          ((2 * (n + t.quantity) : ℕ) : ℤ) from by push_cast; ring]
        rw [ih2]
        rw [runQty, hk]
    · -- Sell
      have hc := hclean
      unfold cleanAcc at hc
      rw [hk] at hc
      rw [Bool.and_eq_true, decide_eq_true_eq] at hc
      obtain ⟨hle, hclean2⟩ := hc
      obtain ⟨ih1, ih2⟩ := ih (n - t.quantity) hts_sp hts_dt hclean2 (by omega)
      constructor
      · rw [quantityGo, if_neg hnb, hqAt, hk]
        rw [show tradeSign TradeKind.Sell = -1 from rfl, neg_one_mul]
        rw [i32sat_eq _ (by omega) (by omega), wrap32_eq _ (by omega) (by omega)]
        rw [show ((n : ℤ) + -(t.quantity : ℤ)) = ((n - t.quantity : ℕ) : ℤ) from by
          push_cast [Nat.cast_sub hle]
          ring]
        rw [ih1]
        rw [runQty, hk]
      · rw [List.map_cons, quantityGo, if_neg hnb2, hqAt2]
        rw [show (addSplit 2 T t).kind = t.kind from rfl, hk]
        rw [show tradeSign TradeKind.Sell = -1 from rfl, neg_one_mul]
        rw [i32sat_eq _ (by push_cast; omega) (by push_cast; omega),
          wrap32_eq _ (by push_cast; omega) (by push_cast; omega)]
        rw [show ((2 * n : ℕ) : ℤ) + -((2 * t.quantity : ℕ) : ℤ) =
          ((2 * (n - t.quantity) : ℕ) : ℤ) from by
            push_cast [Nat.cast_sub hle]
            ring]
        rw [ih2]
        rw [runQty, hk]

theorem avgGo_scale (T d : DateTime) (hTd : T.abs < d.abs) :
    ∀ (l : List Trade) (n : ℕ) (a : ℚ),
      (∀ t ∈ l, t.splits = []) →
      (∀ t ∈ l, t.datetime.abs < T.abs) →
      cleanAcc l n = true →
      2 * (n + sumQty l) < 2 ^ 31 →
      (avgGo d l (n, a)).1 = runQty l n ∧
      avgGo d (l.map (addSplit 2 T)) (2 * n, a / 2) =
        (2 * (avgGo d l (n, a)).1, (avgGo d l (n, a)).2 / 2) := by
  intro l
  induction l with
  | nil =>
    intro n a _ _ _ _
    exact ⟨rfl, rfl⟩
  | cons t ts ih =>
    intro n a hsp hdt hclean hbound
    have ht_sp := hsp t (List.mem_cons_self t ts)
    have ht_dt := hdt t (List.mem_cons_self t ts)
    have hts_sp := fun x hx => hsp x (List.mem_cons_of_mem t hx)
    have hts_dt := fun x hx => hdt x (List.mem_cons_of_mem t hx)
    have hsum : sumQty (t :: ts) = t.quantity + sumQty ts := by
      simp [sumQty]
    have hq32 : t.quantity < 2 ^ 32 := by omega
    have hqAt : t.quantityAt d = t.quantity := quantityAt_nil t d ht_sp hq32
    have hqAt2 : (addSplit 2 T t).quantityAt d = 2 * t.quantity :=
      addSplit_quantityAt_gt t T d hTd ht_sp (by omega)
    have hpAt : t.priceAt d = t.price := priceAt_nil t d ht_sp
    have hpAt2 : (addSplit 2 T t).priceAt d = t.price / 2 :=
      addSplit_priceAt_gt t T d hTd ht_sp
    have hnb : ¬d.abs ≤ t.datetime.abs := by omega
    have hnb2 : ¬d.abs ≤ (addSplit 2 T t).datetime.abs := by
      simp only [addSplit]
      omega
    cases hk : t.kind
    · -- Buy
      have hclean2 : cleanAcc ts (n + t.quantity) = true := by
        unfold cleanAcc at hclean
        rw [hk] at hclean
        exact hclean
      have hstep1 : avgStep d (n, a) t = ((n + t.quantity : ℕ),
          (a * (n : ℚ) + t.price * (t.quantity : ℚ)) / ((n + t.quantity : ℕ) : ℚ)) := by
        simp only [avgStep, hk, hqAt, hpAt]
        rw [Nat.mod_eq_of_lt (by omega)]
      have hstep2 : avgStep d (2 * n, a / 2) (addSplit 2 T t) = ((2 * (n + t.quantity) : ℕ),
          (a / 2 * ((2 * n : ℕ) : ℚ) + t.price / 2 * ((2 * t.quantity : ℕ) : ℚ)) /
            ((2 * (n + t.quantity) : ℕ) : ℚ)) := by
        simp only [avgStep, show (addSplit 2 T t).kind = t.kind from rfl, hk, hqAt2, hpAt2]
        rw [show 2 * n + 2 * t.quantity = 2 * (n + t.quantity) from by ring,
          Nat.mod_eq_of_lt (by omega)]
      have havg : (a / 2 * ((2 * n : ℕ) : ℚ) + t.price / 2 * ((2 * t.quantity : ℕ) : ℚ)) /
            ((2 * (n + t.quantity) : ℕ) : ℚ) =
          ((a * (n : ℚ) + t.price * (t.quantity : ℚ)) / ((n + t.quantity : ℕ) : ℚ)) / 2 := by
        by_cases hz : n + t.quantity = 0
        · rw [hz]
          norm_num
        · have hnum : a / 2 * ((2 * n : ℕ) : ℚ) + t.price / 2 * ((2 * t.quantity : ℕ) : ℚ) =
              a * (n : ℚ) + t.price * (t.quantity : ℚ) := by
            push_cast
            ring
          have hcast : ((2 * (n + t.quantity) : ℕ) : ℚ) = 2 * ((n + t.quantity : ℕ) : ℚ) := by
            push_cast
            ring
          rw [hnum, hcast, div_div, mul_comm ((n + t.quantity : ℕ) : ℚ) 2]
      obtain ⟨ih1, ih2⟩ := ih (n + t.quantity)
        ((a * (n : ℚ) + t.price * (t.quantity : ℚ)) / ((n + t.quantity : ℕ) : ℚ))
        hts_sp hts_dt hclean2 (by omega)
      constructor
      · rw [avgGo, if_neg hnb, hstep1, runQty, hk]
        exact ih1
      · rw [List.map_cons, avgGo, if_neg hnb2, hstep2, havg,
          avgGo, if_neg hnb, hstep1]
        exact ih2
    · -- Sell
      have hc := hclean
      unfold cleanAcc at hc
      rw [hk] at hc
      rw [Bool.and_eq_true, decide_eq_true_eq] at hc
      obtain ⟨hle, hclean2⟩ := hc
      have hstep1 : avgStep d (n, a) t =
          ((n - t.quantity : ℕ), if (n - t.quantity : ℕ) = 0 then 0 else a) := by
        simp only [avgStep, hk, hqAt]
        rw [show (n + (2 ^ 32 - t.quantity)) % 2 ^ 32 = n - t.quantity from by omega]
      have hstep2 : avgStep d (2 * n, a / 2) (addSplit 2 T t) =
          ((2 * (n - t.quantity) : ℕ),
            if (2 * (n - t.quantity) : ℕ) = 0 then 0 else a / 2) := by
        simp only [avgStep, show (addSplit 2 T t).kind = t.kind from rfl, hk, hqAt2]
        rw [show (2 * n + (2 ^ 32 - 2 * t.quantity)) % 2 ^ 32 = 2 * (n - t.quantity) from by
          omega]
      have hif : (if (2 * (n - t.quantity) : ℕ) = 0 then (0 : ℚ) else a / 2) =
          (if (n - t.quantity : ℕ) = 0 then (0 : ℚ) else a) / 2 := by
        by_cases hz : (n - t.quantity : ℕ) = 0
        · rw [if_pos hz, if_pos (by omega)]
          norm_num
        · rw [if_neg hz, if_neg (by omega)]
      obtain ⟨ih1, ih2⟩ := ih (n - t.quantity)
        (if (n - t.quantity : ℕ) = 0 then 0 else a)
        hts_sp hts_dt hclean2 (by omega)
      constructor
      · rw [avgGo, if_neg hnb, hstep1, runQty, hk]
        exact ih1
      · rw [List.map_cons, avgGo, if_neg hnb2, hstep2, hif,
          avgGo, if_neg hnb, hstep1]
        exact ih2

/-- A split leaves every query dated at or before the split's timestamp
unchanged: the appended adjustments are invisible to such cutoffs. -/
theorem splitTrades_replay (r : ℚ) (T d : DateTime) (hdT : d.abs ≤ T.abs) :
    ∀ (l : List Trade) (a : ℤ) (st : ℕ × ℚ),
      quantityGo d (splitTrades r T l) a = quantityGo d l a ∧
      avgGo d (splitTrades r T l) st = avgGo d l st := by
  intro l
  induction l with
  | nil => intro a st; exact ⟨rfl, rfl⟩
  | cons t ts ih =>
    intro a st
    by_cases hb : T.abs ≤ t.datetime.abs
    · rw [splitTrades, if_pos hb]
      exact ⟨rfl, rfl⟩
    · rw [splitTrades, if_neg hb]
      have hq := addSplit_quantityAt_le r T t d hdT
      have hp := addSplit_priceAt_le r T t d hdT
      by_cases hbr : d.abs ≤ t.datetime.abs
      · constructor
        · rw [quantityGo, if_pos hbr, quantityGo, if_pos hbr]
        · rw [avgGo, if_pos hbr, avgGo, if_pos hbr]
      · have hst : avgStep d st (addSplit r T t) = avgStep d st t := by
          unfold avgStep
          cases hk : t.kind <;>
            simp only [show (addSplit r T t).kind = t.kind from rfl, hk, hq, hp]
        have hbr2 : ¬d.abs ≤ (addSplit r T t).datetime.abs := hbr
        constructor
        · rw [show ({ t with splits := t.splits ++ [⟨r, T⟩] } : Trade) = addSplit r T t
            from rfl]
          simp only [quantityGo]
          rw [if_neg hbr2, if_neg hbr]
          rw [show (addSplit r T t).kind = t.kind from rfl, hq]
          exact (ih (wrap32 (a + i32sat (tradeSign t.kind * (t.quantityAt d : ℤ)))) st).1
        · rw [show ({ t with splits := t.splits ++ [⟨r, T⟩] } : Trade) = addSplit r T t
            from rfl]
          simp only [avgGo]
          rw [if_neg hbr2, if_neg hbr, hst]
          exact (ih a (avgStep d st t)).2

/-! ## C3 — effect of a 2:1 split on point-in-time queries -/

/-- C3 (counterexample): the doubling/halving law fails as universally stated.
A trade dated *after* the split time `T` receives no adjustment, so
`quantity_as_of(d)` is not doubled for `d > T`; and on a ledger with an
earlier 3:2 split, the `as u32` truncation makes a later 2:1 split triple
(1 → 3) the reconstructed quantity instead of doubling it (1 → 2). -/
theorem C3_counterexample :
    ¬((Stock.mk "A" [buyT 1 10 5]).split 2 (dtOf 2)).quantity (dtOf 10) =
        2 * (Stock.mk "A" [buyT 1 10 5]).quantity (dtOf 10) ∧
    ¬((Stock.mk "A" [buyTS 1 10 1 [⟨3/2, dtOf 2⟩]]).split 2 (dtOf 3)).quantity (dtOf 10) =
        2 * (Stock.mk "A" [buyTS 1 10 1 [⟨3/2, dtOf 2⟩]]).quantity (dtOf 10) := by
  have e1 : ((Stock.mk "A" [buyT 1 10 5]).split 2 (dtOf 2)).quantity (dtOf 10) = 1 := by
    norm_num [Stock.split, splitTrades, Stock.quantity, quantityGo, Trade.quantityAt,
      Trade.split_ratio, u32ofRat, i32sat, wrap32, tradeSign, dtOf, buyT]
    try simp
    try norm_num
  have e2 : (Stock.mk "A" [buyT 1 10 5]).quantity (dtOf 10) = 1 := by
    norm_num [Stock.quantity, quantityGo, Trade.quantityAt,
      Trade.split_ratio, u32ofRat, i32sat, wrap32, tradeSign, dtOf, buyT]
    try simp
    try norm_num
  have e3 : ((Stock.mk "A" [buyTS 1 10 1 [⟨3/2, dtOf 2⟩]]).split 2 (dtOf 3)).quantity
      (dtOf 10) = 3 := by
    norm_num [Stock.split, splitTrades, Stock.quantity, quantityGo, Trade.quantityAt,
      Trade.split_ratio, u32ofRat, i32sat, wrap32, tradeSign, dtOf, buyTS, List.filter]
    try simp
    try norm_num
  have e4 : (Stock.mk "A" [buyTS 1 10 1 [⟨3/2, dtOf 2⟩]]).quantity (dtOf 10) = 1 := by
    norm_num [Stock.quantity, quantityGo, Trade.quantityAt,
      Trade.split_ratio, u32ofRat, i32sat, wrap32, tradeSign, dtOf, buyTS, List.filter]
    try simp
    try norm_num
  rw [e1, e2, e3, e4]
  omega

/-- C3 (amended): on a ledger whose trades all precede the split time `T`,
carry no prior adjustments (so all effective quantities are whole), replay
cleanly (no sell exceeds the running quantity) and whose total quantity is
small enough not to overflow, a 2:1 split at `T` doubles `quantity_as_of(d)`
and halves `average_cost_as_of(d)` for every `d > T` and leaves both
unchanged for every `d ≤ T`; split adjustments always compose
multiplicatively on a trade's ratio product (hence on its effective quantity
and price). -/
theorem C3_split_two (s : Stock) (T : DateTime)
    (h1 : ∀ t ∈ s.trades, t.datetime.abs < T.abs)
    (h2 : ∀ t ∈ s.trades, t.splits = [])
    (h3 : 2 * sumQty s.trades < 2 ^ 31)
    (h4 : cleanAcc s.trades 0 = true) :
    (∀ d : DateTime, T.abs < d.abs →
      (s.split 2 T).quantity d = 2 * s.quantity d ∧
      (s.split 2 T).average_purchase_price d = s.average_purchase_price d / 2) ∧
    (∀ d : DateTime, d.abs ≤ T.abs →
      (s.split 2 T).quantity d = s.quantity d ∧
      (s.split 2 T).average_purchase_price d = s.average_purchase_price d) ∧
    (∀ (t : Trade) (sp : Split) (d : DateTime),
      ({ t with splits := t.splits ++ [sp] } : Trade).split_ratio d =
        if sp.datetime.abs < d.abs then t.split_ratio d * sp.ratio
        else t.split_ratio d) := by
  refine ⟨?_, ?_, fun t sp d => split_ratio_append t sp d⟩
  · intro d hTd
    have hmap : splitTrades 2 T s.trades = s.trades.map (addSplit 2 T) :=
      splitTrades_eq_map 2 T s.trades h1
    have hrun_le : runQty s.trades 0 ≤ 0 + sumQty s.trades := runQty_le s.trades 0
    constructor
    · obtain ⟨hq1, hq2⟩ := qtyGo_scale T d hTd s.trades 0 h2 h1 h4 (by omega)
      norm_num at hq1 hq2
      unfold Stock.quantity Stock.split
      simp only []
      rw [hmap, hq1, hq2]
      omega
    · obtain ⟨ha1, ha2⟩ := avgGo_scale T d hTd s.trades 0 0 h2 h1 h4 (by omega)
      unfold Stock.average_purchase_price Stock.split
      simp only []
      rw [hmap]
      have h00 : ((0 : ℕ), (0 : ℚ)) = ((2 * 0 : ℕ), (0 : ℚ) / 2) := by simp
      conv_lhs => rw [h00]
      rw [ha2]
  · intro d hdT
    obtain ⟨hq, ha⟩ := splitTrades_replay 2 T d hdT s.trades 0 (0, 0)
    constructor
    · unfold Stock.quantity Stock.split
      simp only []
      rw [hq]
    · unfold Stock.average_purchase_price Stock.split
      simp only []
      rw [ha]

theorem C3_split_two_witness :
    ((Stock.mk "A" [buyT 1 10 1]).split 2 (dtOf 5)).quantity (dtOf 6) =
      2 * (Stock.mk "A" [buyT 1 10 1]).quantity (dtOf 6) ∧
    ((Stock.mk "A" [buyT 1 10 1]).split 2 (dtOf 5)).average_purchase_price (dtOf 6) =
      (Stock.mk "A" [buyT 1 10 1]).average_purchase_price (dtOf 6) / 2 :=
  (C3_split_two (Stock.mk "A" [buyT 1 10 1]) (dtOf 5)
    (by intro t ht
        simp only [List.mem_singleton] at ht
        subst ht
        simp [buyT, dtOf])
    (by intro t ht
        simp only [List.mem_singleton] at ht
        subst ht
        simp [buyT])
    (by norm_num [sumQty, buyT])
    (by decide)).1 (dtOf 6) (by simp [dtOf])

/-! ## C8 — non-negativity of the reconstructed quantity -/

/-- Signed sum of split-adjusted quantities (Buy positive, Sell negative) of a
trade list, all adjusted as of `d`. -/
def signedList (d : DateTime) (l : List Trade) : ℤ :=
  (l.map (fun t => tradeSign t.kind * (t.quantityAt d : ℤ))).sum

/-- The claim's reconstructed signed quantity as of `d`: split-adjusted Buy
quantities minus split-adjusted Sell quantities over the trades strictly
before `d`. -/
def Stock.signedSum (s : Stock) (d : DateTime) : ℤ :=
  signedList d (s.trades.filter (fun (t : Trade) => decide (t.datetime.abs < d.abs)))

/-- Total of the stored Buy quantities of a ledger. -/
def buyTotal (s : Stock) : ℕ :=
  (s.trades.map (fun t => match t.kind with
    | TradeKind.Buy => t.quantity
    | TradeKind.Sell => 0)).sum

theorem signedList_append (d : DateTime) (l1 l2 : List Trade) :
    signedList d (l1 ++ l2) = signedList d l1 + signedList d l2 := by
  simp [signedList]

theorem signedList_eq_raw (d : DateTime) (l : List Trade)
    (h : ∀ t ∈ l, t.splits = [] ∧ t.quantity < 2 ^ 32) :
    signedList d l = (l.map (fun t => tradeSign t.kind * (t.quantity : ℤ))).sum := by
  unfold signedList
  congr 1
  apply List.map_congr_left
  intro t ht
  rw [quantityAt_nil t d (h t ht).1 (h t ht).2]

/-- Range bookkeeping for the `i32` accumulator of `Stock::quantity`: every
intermediate value stays within the `i32` range, so neither the saturating
cast nor the wrapping addition engages. -/
def okAcc (d : DateTime) : ℤ → List Trade → Prop
  | _, [] => True
  | acc, t :: ts =>
    (t.quantityAt d : ℤ) ≤ 2 ^ 31 - 1 ∧
    -(2 ^ 31) ≤ acc + tradeSign t.kind * (t.quantityAt d : ℤ) ∧
    acc + tradeSign t.kind * (t.quantityAt d : ℤ) ≤ 2 ^ 31 - 1 ∧
    okAcc d (acc + tradeSign t.kind * (t.quantityAt d : ℤ)) ts

theorem foldl_wrap_eq_sum (d : DateTime) :
    ∀ (l : List Trade) (acc : ℤ), okAcc d acc l →
      l.foldl (fun q t => wrap32 (q + i32sat (tradeSign t.kind * (t.quantityAt d : ℤ)))) acc =
        acc + signedList d l := by
  intro l
  induction l with
  | nil =>
    intro acc _
    simp [signedList]
  | cons t ts ih =>
    intro acc hok
    obtain ⟨b1, b2, b3, hok2⟩ := hok
    have hq0 : (0 : ℤ) ≤ (t.quantityAt d : ℤ) := Int.natCast_nonneg _
    have hc : -(2 ^ 31) ≤ tradeSign t.kind * (t.quantityAt d : ℤ) ∧
        tradeSign t.kind * (t.quantityAt d : ℤ) ≤ 2 ^ 31 - 1 := by
      cases hk : t.kind <;> simp only [tradeSign, hk] <;> constructor <;> omega
    rw [List.foldl_cons, i32sat_eq _ hc.1 hc.2, wrap32_eq _ b2 (by omega), ih _ hok2]
    simp only [signedList, List.map_cons, List.sum_cons]
    ring

theorem okAcc_append_one (d : DateTime) :
    ∀ (l : List Trade) (acc : ℤ) (t : Trade), okAcc d acc l →
      (t.quantityAt d : ℤ) ≤ 2 ^ 31 - 1 →
      -(2 ^ 31) ≤ acc + signedList d l + tradeSign t.kind * (t.quantityAt d : ℤ) →
      acc + signedList d l + tradeSign t.kind * (t.quantityAt d : ℤ) ≤ 2 ^ 31 - 1 →
      okAcc d acc (l ++ [t]) := by
  intro l
  induction l with
  | nil =>
    intro acc t _ hb hlo hhi
    simp only [signedList, List.map_nil, List.sum_nil, add_zero] at hlo hhi
    exact ⟨hb, hlo, hhi, trivial⟩
  | cons x xs ih =>
    intro acc t hok hb hlo hhi
    obtain ⟨b1, b2, b3, hok2⟩ := hok
    simp only [signedList, List.map_cons, List.sum_cons] at hlo hhi
    rw [List.cons_append]
    refine ⟨b1, b2, b3, ih _ t hok2 hb ?_ ?_⟩
    · simp only [signedList]
      omega
    · simp only [signedList]
      omega

/-- Appending a trade dated at or after everything in a sorted ledger:
`add_trade`'s stable sort is the identity on the already-sorted result. -/
theorem add_trade_append (s : Stock) (t : Trade)
    (hsorted : SortedTrades s.trades)
    (hall : ∀ x ∈ s.trades, x.datetime.abs ≤ t.datetime.abs) :
    (s.add_trade t).trades = s.trades ++ [t] := by
  unfold Stock.add_trade
  simp only []
  apply List.mergeSort_of_sorted
  rw [List.pairwise_append]
  refine ⟨hsorted.imp (fun h => by simpa [tradeLE] using h), by simp, ?_⟩
  intro x hx y hy
  simp only [List.mem_singleton] at hy
  subst hy
  simpa [tradeLE] using hall x hx

/-- Ledgers built exclusively through the `Stock` entry points, with
strictly increasing timestamps, no splits, and a total bought quantity that
fits comfortably in `i32`; every sell passed the insertion-time holdings
check (that check is the `Stock::sell` success itself). -/
inductive StrictLedger : Stock → Prop where
  | base (symbol : String) : StrictLedger (Stock.new symbol)
  | buy (s : Stock) (q : ℕ) (pr : ℚ) (dt : DateTime) :
      StrictLedger s → (∀ t ∈ s.trades, t.datetime.abs < dt.abs) →
      buyTotal s + q < 2 ^ 31 → StrictLedger (s.buy q pr dt)
  | sell (s : Stock) (q : ℕ) (pr : ℚ) (dt : DateTime) (s2 : Stock) (profit : ℚ) :
      StrictLedger s → (∀ t ∈ s.trades, t.datetime.abs < dt.abs) →
      s.sell q pr dt = some (s2, profit) → StrictLedger s2

theorem quantityGo_eq_signedSum (s : Stock) (d : DateTime)
    (hsorted : SortedTrades s.trades)
    (hok : okAcc d 0 (s.trades.filter (fun (t : Trade) => decide (t.datetime.abs < d.abs)))) :
    quantityGo d s.trades 0 = s.signedSum d := by
  rw [quantityGo_filter d s.trades 0 hsorted, foldl_wrap_eq_sum d _ 0 hok, zero_add]
  rfl

theorem quantity_cast_eq (s : Stock) (d : DateTime)
    (hsorted : SortedTrades s.trades)
    (hok : okAcc d 0 (s.trades.filter (fun (t : Trade) => decide (t.datetime.abs < d.abs))))
    (h0 : 0 ≤ s.signedSum d) (hub : s.signedSum d < 2 ^ 31) :
    (s.quantity d : ℤ) = s.signedSum d := by
  unfold Stock.quantity
  rw [quantityGo_eq_signedSum s d hsorted hok]
  omega

theorem buyTotal_append (s2 s : Stock) (t : Trade) (htr : s2.trades = s.trades ++ [t]) :
    buyTotal s2 = buyTotal s +
      (match t.kind with | TradeKind.Buy => t.quantity | TradeKind.Sell => 0) := by
  unfold buyTotal
  rw [htr]
  simp

/-- One invariant-preserving append step shared by the buy and sell cases of
the strict-ledger induction. -/
theorem inv_append (s s2 : Stock) (t : Trade)
    (htr : s2.trades = s.trades ++ [t])
    (ihA : ∀ x ∈ s.trades, x.splits = [] ∧ x.quantity < 2 ^ 31)
    (ihB : s.trades.Pairwise (fun a b => a.datetime.abs < b.datetime.abs))
    (ihD : ∀ d : DateTime, 0 ≤ s.signedSum d ∧ s.signedSum d ≤ (buyTotal s : ℤ) ∧
      okAcc d 0 (s.trades.filter (fun (t : Trade) => decide (t.datetime.abs < d.abs))))
    (ihC2 : buyTotal s2 < 2 ^ 31)
    (hBT : (buyTotal s : ℤ) ≤ (buyTotal s2 : ℤ))
    (hall : ∀ x ∈ s.trades, x.datetime.abs < t.datetime.abs)
    (hsp : t.splits = [])
    (hq31 : t.quantity < 2 ^ 31)
    (hlow : ∀ d : DateTime, t.datetime.abs < d.abs →
      0 ≤ s.signedSum d + tradeSign t.kind * (t.quantity : ℤ))
    (hhigh : ∀ d : DateTime, t.datetime.abs < d.abs →
      s.signedSum d + tradeSign t.kind * (t.quantity : ℤ) ≤ (buyTotal s2 : ℤ)) :
    (∀ x ∈ s2.trades, x.splits = [] ∧ x.quantity < 2 ^ 31) ∧
    s2.trades.Pairwise (fun a b => a.datetime.abs < b.datetime.abs) ∧
    (∀ d : DateTime, 0 ≤ s2.signedSum d ∧ s2.signedSum d ≤ (buyTotal s2 : ℤ) ∧
      okAcc d 0 (s2.trades.filter (fun (t : Trade) => decide (t.datetime.abs < d.abs)))) := by
  have hsign : -(1 : ℤ) ≤ tradeSign t.kind ∧ tradeSign t.kind ≤ 1 := by
    cases hk : t.kind <;> simp [tradeSign, hk]
  refine ⟨?_, ?_, ?_⟩
  · rw [htr]
    intro x hx
    rcases List.mem_append.mp hx with h | h
    · exact ihA x h
    · simp only [List.mem_singleton] at h
      subst h
      exact ⟨hsp, hq31⟩
  · rw [htr, List.pairwise_append]
    refine ⟨ihB, by simp, ?_⟩
    intro x hx y hy
    simp only [List.mem_singleton] at hy
    subst hy
    exact hall x hx
  · intro d
    obtain ⟨h0, hub, hok⟩ := ihD d
    have hqAt : t.quantityAt d = t.quantity := quantityAt_nil t d hsp (by omega)
    have hsum2 : s2.signedSum d = s.signedSum d +
        signedList d ([t].filter (fun (t : Trade) => decide (t.datetime.abs < d.abs))) := by
      unfold Stock.signedSum
      rw [htr, List.filter_append, signedList_append]
    by_cases hd : t.datetime.abs < d.abs
    · have hfil : [t].filter (fun (t : Trade) => decide (t.datetime.abs < d.abs)) = [t] := by
        simp [hd]
      have hone : signedList d [t] = tradeSign t.kind * (t.quantity : ℤ) := by
        simp [signedList, hqAt]
      have hsum3 : s2.signedSum d = s.signedSum d + tradeSign t.kind * (t.quantity : ℤ) := by
        rw [hsum2, hfil, hone]
      refine ⟨by rw [hsum3]; exact hlow d hd, by rw [hsum3]; exact hhigh d hd, ?_⟩
      rw [htr, List.filter_append, hfil]
      apply okAcc_append_one d _ 0 t hok
      · rw [hqAt]
        omega
      · have : signedList d (s.trades.filter
            (fun (t : Trade) => decide (t.datetime.abs < d.abs))) = s.signedSum d := rfl
        rw [this, hqAt]
        have := hlow d hd
        omega
      · have : signedList d (s.trades.filter
            (fun (t : Trade) => decide (t.datetime.abs < d.abs))) = s.signedSum d := rfl
        rw [this, hqAt]
        have := hhigh d hd
        omega
    · have hfil : [t].filter (fun (t : Trade) => decide (t.datetime.abs < d.abs)) = [] := by
        simp [hd]
      have hsum3 : s2.signedSum d = s.signedSum d := by
        rw [hsum2, hfil]
        simp [signedList]
      rw [htr, List.filter_append, hfil, List.append_nil]
      exact ⟨by rw [hsum3]; exact h0, by rw [hsum3]; omega, hok⟩

theorem strict_ledger_inv (s : Stock) (h : StrictLedger s) :
    (∀ t ∈ s.trades, t.splits = [] ∧ t.quantity < 2 ^ 31) ∧
    s.trades.Pairwise (fun a b => a.datetime.abs < b.datetime.abs) ∧
    buyTotal s < 2 ^ 31 ∧
    (∀ d : DateTime, 0 ≤ s.signedSum d ∧ s.signedSum d ≤ (buyTotal s : ℤ) ∧
      okAcc d 0 (s.trades.filter (fun (t : Trade) => decide (t.datetime.abs < d.abs)))) := by
  induction h with
  | base symbol =>
    refine ⟨by simp [Stock.new], by simp [Stock.new], by norm_num [buyTotal, Stock.new], ?_⟩
    intro d
    refine ⟨by simp [Stock.signedSum, signedList, Stock.new],
      by simp [Stock.signedSum, signedList, Stock.new, buyTotal], ?_⟩
    exact trivial
  | buy s q pr dt hs hall hbt ih =>
    obtain ⟨ihA, ihB, ihC, ihD⟩ := ih
    have hsorted_le : SortedTrades s.trades := ihB.imp le_of_lt
    have htr : (s.buy q pr dt).trades = s.trades ++ [buyTrade q pr dt] := by
      unfold Stock.buy
      exact add_trade_append s _ hsorted_le (fun x hx => le_of_lt (hall x hx))
    have hBT2 : buyTotal (s.buy q pr dt) = buyTotal s + q := by
      rw [buyTotal_append _ s _ htr]
      rfl
    have hC2 : buyTotal (s.buy q pr dt) < 2 ^ 31 := by omega
    have hbt2c : (buyTotal (s.buy q pr dt) : ℤ) = (buyTotal s : ℤ) + q := by
      rw [hBT2]
      push_cast
      ring
    obtain ⟨hA2, hB2, hD2⟩ := inv_append s (s.buy q pr dt) _ htr ihA ihB ihD hC2
      (by omega) hall rfl
      (by show q < 2 ^ 31; omega)
      (fun d hd => by
        show 0 ≤ s.signedSum d + tradeSign TradeKind.Buy * (q : ℤ)
        have := (ihD d).1
        simp only [tradeSign]
        omega)
      (fun d hd => by
        show s.signedSum d + tradeSign TradeKind.Buy * (q : ℤ) ≤
          (buyTotal (s.buy q pr dt) : ℤ)
        have := (ihD d).2.1
        simp only [tradeSign]
        omega)
    exact ⟨hA2, hB2, hC2, hD2⟩
  | sell s q pr dt s2 profit hs hall hsell ih =>
    obtain ⟨ihA, ihB, ihC, ihD⟩ := ih
    have hsorted_le : SortedTrades s.trades := ihB.imp le_of_lt
    by_cases hq : q ≤ s.quantity dt
    case neg =>
      rw [stock_sell_neg s q pr dt hq] at hsell
      exact absurd hsell (by simp)
    case pos =>
      rw [stock_sell_pos s q pr dt hq] at hsell
      have hpair := Option.some.inj hsell
      have hs2 : s.add_trade (sellTrade q pr dt) = s2 := congrArg Prod.fst hpair
      subst hs2
      have htr : (s.add_trade (sellTrade q pr dt)).trades =
          s.trades ++ [sellTrade q pr dt] :=
        add_trade_append s _ hsorted_le (fun x hx => le_of_lt (hall x hx))
      have hBT2 : buyTotal (s.add_trade (sellTrade q pr dt)) = buyTotal s := by
        rw [buyTotal_append _ s _ htr]
        rfl
      -- the insertion-time check transfers to the mathematical signed sum
      have hfull_dt : s.trades.filter
          (fun (t : Trade) => decide (t.datetime.abs < dt.abs)) = s.trades :=
        List.filter_eq_self.mpr (fun x hx => by simpa using hall x hx)
      obtain ⟨h0dt, hubdt, hokdt⟩ := ihD dt
      have hqle : (q : ℤ) ≤ s.signedSum dt := by
        have hcast := quantity_cast_eq s dt hsorted_le hokdt h0dt (by
          have : (buyTotal s : ℤ) < 2 ^ 31 := by exact_mod_cast ihC
          omega)
        have : (q : ℤ) ≤ (s.quantity dt : ℤ) := by exact_mod_cast hq
        omega
      -- cross-cutoff transfer: for d past the sell, the signed sum equals the one at dt
      have hcross : ∀ d : DateTime, dt.abs < d.abs → s.signedSum d = s.signedSum dt := by
        intro d hd
        have hfull_d : s.trades.filter
            (fun (t : Trade) => decide (t.datetime.abs < d.abs)) = s.trades :=
          List.filter_eq_self.mpr (fun x hx => by
            have := hall x hx
            simp only [decide_eq_true_eq]
            omega)
        unfold Stock.signedSum
        rw [hfull_d, hfull_dt]
        rw [signedList_eq_raw d s.trades (fun x hx => ⟨(ihA x hx).1, by have := (ihA x hx).2; omega⟩),
          signedList_eq_raw dt s.trades (fun x hx => ⟨(ihA x hx).1, by have := (ihA x hx).2; omega⟩)]
      have hq31 : q < 2 ^ 31 := by
        have : (buyTotal s : ℤ) < 2 ^ 31 := by exact_mod_cast ihC
        omega
      have hbt2c : (buyTotal (s.add_trade (sellTrade q pr dt)) : ℤ) = (buyTotal s : ℤ) := by
        rw [hBT2]
      obtain ⟨hA2, hB2, hD2⟩ := inv_append s _ _ htr ihA ihB ihD
        (by omega) (by omega) hall rfl
        (by show q < 2 ^ 31; omega)
        (fun d hd => by
          show 0 ≤ s.signedSum d + tradeSign TradeKind.Sell * (q : ℤ)
          have h1 := hcross d hd
          simp only [tradeSign]
          omega)
        (fun d hd => by
          show s.signedSum d + tradeSign TradeKind.Sell * (q : ℤ) ≤ _
          have h1 := hcross d hd
          have h2 := (ihD d).2.1
          simp only [tradeSign]
          omega)
      refine ⟨hA2, hB2, by omega, hD2⟩

/-- C8 (amended): for ledgers built exclusively through the entry points with
strictly increasing timestamps, no splits, and total bought quantity below
`2^31` (so no machine-arithmetic truncation engages), the signed sum of Buy
minus Sell quantities over the trades before any reference date `d` is never
negative, and `Stock::quantity` computes exactly that sum. Splits, equal
timestamps, or backdated sells break the general statement (see the
counterexample). -/
theorem C8_amended (s : Stock) (h : StrictLedger s) (d : DateTime) :
    0 ≤ s.signedSum d ∧ (s.quantity d : ℤ) = s.signedSum d := by
  obtain ⟨hA, hB, hC, hD⟩ := strict_ledger_inv s h
  obtain ⟨h0, hub, hok⟩ := hD d
  refine ⟨h0, ?_⟩
  exact quantity_cast_eq s d (hB.imp le_of_lt) hok h0 (by
    have : (buyTotal s : ℤ) < 2 ^ 31 := by exact_mod_cast hC
    omega)

theorem C8_amended_witness :
    0 ≤ ((Stock.new "A").buy 2 10 (dtOf 1)).signedSum (dtOf 2) ∧
    ((((Stock.new "A").buy 2 10 (dtOf 1)).quantity (dtOf 2)) : ℤ) =
      ((Stock.new "A").buy 2 10 (dtOf 1)).signedSum (dtOf 2) :=
  C8_amended ((Stock.new "A").buy 2 10 (dtOf 1))
    (StrictLedger.buy (Stock.new "A") 2 10 (dtOf 1) (StrictLedger.base "A")
      (by intro t ht; simp [Stock.new] at ht)
      (by norm_num [buyTotal, Stock.new]))
    (dtOf 2)

/-- C8 (counterexample): the signed reconstructed quantity *can* go negative
on ledgers built exclusively through the entry points, every sell passing its
insertion-time check. (а) buy 1, buy 1, sell 2 (allowed), then a 3:2 split:
as of a later date the two buys truncate to `⌊1·1.5⌋ = 1` each while the sell
becomes `⌊2·1.5⌋ = 3`, summing to `-1`. (b) buy 5, then two sells of 5 at the
*same* timestamp: each check sees the full prior holding (strictly-before
semantics), both pass, and the sum as of a later date is `-5`. -/
theorem C8_counterexample :
    ((((Stock.new "A").buy 1 10 (dtOf 1)).buy 1 10 (dtOf 2)).sell 2 20 (dtOf 3)).map
        (fun x => (x.1.split (3/2) (dtOf 10)).signedSum (dtOf 11)) = some (-1) ∧
    (((Stock.new "A").buy 5 10 (dtOf 1)).sell 5 20 (dtOf 2)).bind
        (fun x => (x.1.sell 5 20 (dtOf 2)).map (fun y => y.1.signedSum (dtOf 3))) =
      some (-5) := by
  constructor
  · have t1 : ((Stock.new "A").buy 1 10 (dtOf 1)).trades = [buyT 1 10 1] := by
      show ((Stock.new "A").add_trade (buyTrade 1 10 (dtOf 1))).trades = _
      rw [add_trade_append (Stock.new "A") _ (by exact List.Pairwise.nil)
        (by intro x hx; simp [Stock.new] at hx)]
      rfl
    have t2 : (((Stock.new "A").buy 1 10 (dtOf 1)).buy 1 10 (dtOf 2)).trades =
        [buyT 1 10 1, buyT 1 10 2] := by
      show (((Stock.new "A").buy 1 10 (dtOf 1)).add_trade (buyTrade 1 10 (dtOf 2))).trades = _
      rw [add_trade_append ((Stock.new "A").buy 1 10 (dtOf 1)) _
        (by rw [show ((Stock.new "A").buy 1 10 (dtOf 1)).trades = [buyT 1 10 1] from t1]
            simp [SortedTrades])
        (by rw [show ((Stock.new "A").buy 1 10 (dtOf 1)).trades = [buyT 1 10 1] from t1]
            intro x hx
            simp only [List.mem_singleton] at hx
            subst hx
            simp [buyT, dtOf, buyTrade]), t1]
      rfl
    have hq2 : 2 ≤ (((Stock.new "A").buy 1 10 (dtOf 1)).buy 1 10 (dtOf 2)).quantity
        (dtOf 3) := by
      unfold Stock.quantity
      rw [t2]
      norm_num [quantityGo, Trade.quantityAt, Trade.split_ratio, u32ofRat, i32sat,
        wrap32, tradeSign, dtOf, buyT]
      try simp
      try norm_num
    rw [stock_sell_pos _ 2 20 (dtOf 3) hq2]
    have t3 : ((((Stock.new "A").buy 1 10 (dtOf 1)).buy 1 10 (dtOf 2)).add_trade
        (sellTrade 2 20 (dtOf 3))).trades = [buyT 1 10 1, buyT 1 10 2, sellT 2 20 3] := by
      rw [add_trade_append (((Stock.new "A").buy 1 10 (dtOf 1)).buy 1 10 (dtOf 2)) _
        (by rw [t2]; simp [SortedTrades, buyT, dtOf])
        (by rw [t2]
            intro x hx
            simp only [List.mem_cons, List.mem_singleton] at hx
            rcases hx with rfl | rfl | h
            · simp [buyT, dtOf, sellTrade]
            · simp [buyT, dtOf, sellTrade]
            · simp at h), t2]
      rfl
    show some _ = some (-1)
    congr 1
    unfold Stock.split Stock.signedSum
    simp only []
    rw [t3]
    norm_num [splitTrades, signedList, Trade.quantityAt, Trade.split_ratio, u32ofRat,
      tradeSign, dtOf, buyT, sellT, List.filter]
    try simp
    try norm_num
  · have u1 : ((Stock.new "A").buy 5 10 (dtOf 1)).trades = [buyT 5 10 1] := by
      show ((Stock.new "A").add_trade (buyTrade 5 10 (dtOf 1))).trades = _
      rw [add_trade_append (Stock.new "A") _ (by exact List.Pairwise.nil)
        (by intro x hx; simp [Stock.new] at hx)]
      rfl
    have hv1 : 5 ≤ ((Stock.new "A").buy 5 10 (dtOf 1)).quantity (dtOf 2) := by
      unfold Stock.quantity
      rw [u1]
      norm_num [quantityGo, Trade.quantityAt, Trade.split_ratio, u32ofRat, i32sat,
        wrap32, tradeSign, dtOf, buyT]
      try simp
      try norm_num
    rw [stock_sell_pos _ 5 20 (dtOf 2) hv1]
    have u2 : (((Stock.new "A").buy 5 10 (dtOf 1)).add_trade
        (sellTrade 5 20 (dtOf 2))).trades = [buyT 5 10 1, sellT 5 20 2] := by
      rw [add_trade_append ((Stock.new "A").buy 5 10 (dtOf 1)) _
        (by rw [u1]; simp [SortedTrades])
        (by rw [u1]
            intro x hx
            simp only [List.mem_singleton] at hx
            subst hx
            simp [buyT, dtOf, sellTrade]), u1]
      rfl
    show ((((Stock.new "A").buy 5 10 (dtOf 1)).add_trade
        (sellTrade 5 20 (dtOf 2))).sell 5 20 (dtOf 2)).map
      (fun y => y.1.signedSum (dtOf 3)) = some (-5)
    have hv2 : 5 ≤ (((Stock.new "A").buy 5 10 (dtOf 1)).add_trade
        (sellTrade 5 20 (dtOf 2))).quantity (dtOf 2) := by
      unfold Stock.quantity
      rw [u2]
      norm_num [quantityGo, Trade.quantityAt, Trade.split_ratio, u32ofRat, i32sat,
        wrap32, tradeSign, dtOf, buyT, sellT]
      try simp
      try norm_num
    rw [stock_sell_pos _ 5 20 (dtOf 2) hv2]
    have u3 : ((((Stock.new "A").buy 5 10 (dtOf 1)).add_trade
        (sellTrade 5 20 (dtOf 2))).add_trade (sellTrade 5 20 (dtOf 2))).trades =
        [buyT 5 10 1, sellT 5 20 2, sellT 5 20 2] := by
      rw [add_trade_append (((Stock.new "A").buy 5 10 (dtOf 1)).add_trade
          (sellTrade 5 20 (dtOf 2))) _
        (by rw [u2]; simp [SortedTrades, buyT, sellT, dtOf])
        (by rw [u2]
            intro x hx
            simp only [List.mem_cons, List.mem_singleton] at hx
            rcases hx with rfl | rfl | h
            · simp [buyT, dtOf, sellTrade]
            · simp [sellT, dtOf, sellTrade]
            · simp at h), u2]
      rfl
    show some _ = some (-5)
    congr 1
    unfold Stock.signedSum
    simp only []
    rw [u3]
    norm_num [signedList, Trade.quantityAt, Trade.split_ratio, u32ofRat,
      tradeSign, dtOf, buyT, sellT, List.filter]
    try simp
    try norm_num

end Stocks
